import Mathlib

/-!
Verification of the benchmark-harness repository (two labs):
Lab1 benchmarks five Fibonacci implementations, Lab2 benchmarks four
sorting algorithms.  Both labs share a timing harness (`time_run`, a main
measurement loop, CSV/LaTeX writers).  The Python sources are embedded
shallowly below: pure functions become Lean functions, `while` loops become
recursion on an explicit measure (or fuel where the source itself could
diverge on unreachable states), Python `int` becomes `Nat`/`Int`, Python
`list` becomes `List`, in-place index assignment becomes `List.set`, and
the mutable-object discipline of the measurement loop is modelled by an
explicit store from references to list values.
-/

namespace AALabs

/-! ## Lab1: Fibonacci implementations (src/Lab1/scripts/generate_results.py) -/

/-- One iteration of `fib_iterative`'s loop body `a, b = b, a + b`, iterated
`m` times. -/
def fibIterGo : Nat → Nat × Nat → Nat × Nat
  | 0, p => p
  | m + 1, p => fibIterGo m (p.2, p.1 + p.2)

/-- `fib_iterative(n)`: starts from `(a, b) = (0, 1)`, loops `n` times,
returns `a`. -/
def fib_iterative (n : Nat) : Nat := (fibIterGo n (0, 1)).1

/-- `solve(k)` from `fib_fast_doubling`, with explicit fuel: the Python
recursion on `k // 2`.  Values are Python `int`s, hence `Int`. -/
def fdSolve : Nat → Nat → Option (Int × Int)
  | 0, _ => none
  | f + 1, k =>
    if k = 0 then some (0, 1)
    else
      match fdSolve f (k / 2) with
      | none => none
      | some (a, b) =>
        let c := a * (2 * b - a)
        let d := a * a + b * b
        if k % 2 = 0 then some (c, d) else some (d, c + d)

/-- `fib_fast_doubling(n) = solve(n)[0]`; fuel `n + 1` is enough (proved
below), and the `none` fallback is never taken. -/
def fib_fast_doubling (n : Nat) : Int :=
  match fdSolve (n + 1) n with
  | some p => p.1
  | none => 0

/-- The loop body of `fib_binomial`: iterate `k` from its current value up
to `max_k` inclusive, accumulating `total += term` and updating
`term = term * numerator // denominator` while `k < max_k`. -/
def binGo (n maxK : Nat) (k term total : Nat) : Nat :=
  if k ≤ maxK then
    binGo n maxK (k + 1)
      (if k < maxK then
        term * ((n - 2 * k - 1) * (n - 2 * k - 2)) / ((k + 1) * (n - k - 1))
       else term)
      (total + term)
  else total
termination_by maxK + 1 - k
decreasing_by omega

/-- `fib_binomial(n)`: returns 0 for `n = 0`, otherwise runs the loop from
`k = 0`, `term = 1`, `total = 0` with `max_k = (n - 1) // 2`. -/
def fib_binomial (n : Nat) : Nat :=
  if n = 0 then 0 else binGo n ((n - 1) / 2) 0 1 0

/-- 2×2 integer matrix, the data of `fib_matrix_fast`. -/
structure Mat2 where
  a : Int
  b : Int
  c : Int
  d : Int
deriving DecidableEq

/-- `mat_mul` from `fib_matrix_fast`: explicit 2×2 matrix product. -/
def mat_mul (x y : Mat2) : Mat2 :=
  ⟨x.a * y.a + x.b * y.c, x.a * y.b + x.b * y.d,
   x.c * y.a + x.d * y.c, x.c * y.b + x.d * y.d⟩

/-- The identity matrix `[[1, 0], [0, 1]]` (`result`'s initial value). -/
def matI : Mat2 := ⟨1, 0, 0, 1⟩

/-- The base matrix `[[1, 1], [1, 0]]`. -/
def matQ : Mat2 := ⟨1, 1, 1, 0⟩

/-- The `while p > 0` loop of `mat_pow`: square-and-multiply on the low bit
of `p`. -/
def matPowGo (result base : Mat2) (p : Nat) : Mat2 :=
  if p = 0 then result
  else matPowGo (if p % 2 = 1 then mat_mul result base else result)
    (mat_mul base base) (p / 2)
termination_by p
decreasing_by exact Nat.div_lt_self (Nat.pos_of_ne_zero (by assumption)) one_lt_two

/-- `mat_pow(p)` from `fib_matrix_fast`. -/
def mat_pow (p : Nat) : Mat2 := matPowGo matI matQ p

/-- `fib_matrix_fast(n)`: 0 for `n = 0`, else entry `[0][1]` of `mat_pow(n)`. -/
def fib_matrix_fast (n : Nat) : Int :=
  if n = 0 then 0 else (mat_pow n).b

/-- Reference power of a `Mat2` (left multiplication), used to specify the
square-and-multiply loop. -/
def matNpow (x : Mat2) : Nat → Mat2
  | 0 => matI
  | p + 1 => mat_mul x (matNpow x p)

/-! ### `fib_memoized`: explicit-stack loop with a memo dictionary.

The Python dict is modelled as an association list (`List.lookup` finds the
most recent binding; keys are inserted at most once, so this agrees with
dict semantics), the Python list `stack` (append/pop at the end) as a Lean
list with its head as the stack top. -/

/-- State of `fib_memoized`'s `while stack:` loop. -/
structure MemoState where
  stack : List Nat
  memo : List (Nat × Nat)
deriving DecidableEq

/-- Dict lookup `memo.get(k)` / membership `k in memo`. -/
def memoLookup (m : List (Nat × Nat)) (k : Nat) : Option Nat := m.lookup k

/-- One iteration of the `while stack:` loop of `fib_memoized` (identity on
the empty stack, where the Python loop has exited). -/
def memoStep : MemoState → MemoState
  | ⟨[], m⟩ => ⟨[], m⟩
  | ⟨k :: rest, m⟩ =>
    if (memoLookup m k).isSome then ⟨rest, m⟩
    else
      let k1 := k - 1
      let k2 := k - 2
      if (memoLookup m k1).isSome ∧ (memoLookup m k2).isSome then
        ⟨rest, (k, (memoLookup m k1).getD 0 + (memoLookup m k2).getD 0) :: m⟩
      else
        let s1 := k :: rest
        let s2 := if (memoLookup m k1).isSome then s1 else k1 :: s1
        let s3 := if (memoLookup m k2).isSome then s2 else k2 :: s2
        ⟨s3, m⟩

/-- `steps` iterations of the loop. -/
def memoStepN : Nat → MemoState → MemoState
  | 0, s => s
  | j + 1, s => memoStepN j (memoStep s)

/-- An upper bound on the number of loop iterations needed to resolve key
`k` (proved sufficient below). -/
def memoFuel : Nat → Nat
  | 0 => 1
  | 1 => 1
  | k + 2 => 2 + memoFuel (k + 1) + memoFuel k

/-- Initial loop state of `fib_memoized(n)` for `n ≥ 2`:
`memo = {0: 0, 1: 1}`, `stack = [n]`. -/
def initMemoState (n : Nat) : MemoState := ⟨[n], [(0, 0), (1, 1)]⟩

/-- `fib_memoized(n)`: `n` for `n < 2`, otherwise run the stack loop to
completion (the fuel `memoFuel n` is proved sufficient below) and read off
`memo[n]`. -/
def fib_memoized (n : Nat) : Nat :=
  if n < 2 then n
  else (memoLookup (memoStepN (memoFuel n) (initMemoState n)).memo n).getD 0

/-- Invariant on the memo dictionary: every stored value is the Fibonacci
number of its key, and the keys 0 and 1 are present. -/
def goodMemo (m : List (Nat × Nat)) : Prop :=
  (∀ k v, memoLookup m k = some v → v = Nat.fib k) ∧
  (memoLookup m 0).isSome ∧ (memoLookup m 1).isSome

/-! ## The timing/reporting harness (identical in both labs)

`time_run` reads a monotonic clock around each of `REPEATS` invocations of
the algorithm.  The successive elapsed readings are modelled as given
values `es 0, es 1, …` (one rational per trial); each invocation of the
algorithm is recorded in a trace list so that the call count and the fact
that the return value is discarded are provable. -/

/-- `REPEATS = 3` (module-level constant of both labs). -/
def REPEATS : Nat := 3

/-- `time_run(fn, x)`: runs `fn x` once per trial, keeps
`best = elapsed if best is None or elapsed < best`, returns `best` along
with the trace of the discarded outputs. -/
def time_run {α β : Type} (fn : α → β) (x : α) (es : Nat → ℚ) :
    Option ℚ × List β :=
  (List.range REPEATS).foldl
    (fun acc t =>
      let out := fn x
      let elapsed := es t
      (if acc.1.isNone ∨ elapsed < acc.1.getD 0 then some elapsed else acc.1,
       acc.2 ++ [out]))
    (none, [])

/-- The main measurement loop (`main` in both labs): for each registered
algorithm, for each input size in order, append one `(size, time)` pair to
that algorithm's row list, and append the finished `(key, rows)` entry to
the result list.  `measure` abstracts `time_run fn` applied to the input
of size `n`. -/
def run_all {κ α : Type} (algs : List (κ × α)) (sizes : List Nat)
    (measure : α → Nat → ℚ) : List (κ × List (Nat × ℚ)) :=
  algs.foldl
    (fun acc entry =>
      acc ++ [(entry.1,
        sizes.foldl (fun rows n => rows ++ [(n, measure entry.2 n)]) [])])
    []

/-- Content of an output file: a CSV file is the list of records passed to
`csv.writer.writerow`, a LaTeX file the list of lines written to its
handle. -/
inductive FileContent
  | csv (records : List (List String))
  | tex (lines : List String)
deriving DecidableEq

/-- The filesystem, as a map from path to file content. -/
def FS : Type := String → Option FileContent

/-- Opening a path in truncating write mode (`"w"`) and writing `content`:
whatever was stored before is discarded. -/
def fsWrite (fs : FS) (path : String) (content : FileContent) : FS :=
  fun p => if p = path then some content else fs p

/-- `os.path.join("results", f"{name}.csv")`. -/
def csvPath (name : String) : String := "results/" ++ name ++ ".csv"

/-- `os.path.join("results", f"{name}_table.tex")`. -/
def texPath (name : String) : String := "results/" ++ name ++ "_table.tex"

/-- The CSV record written for one `(n, t)` row: `str(n)` and `str(t)`. -/
def csvRecord (r : Nat × ℚ) : List String := [toString r.1, toString r.2]

/-- All records written by `write_csv`: the header, then one record per
row, in row order. -/
def csvRecords (rows : List (Nat × ℚ)) : List (List String) :=
  ["n", "time_s"] :: rows.map csvRecord

/-- Serialization of one CSV record to a line (default dialect, fields
joined by a comma; no field here needs quoting). -/
def csvLine (fields : List String) : String := String.intercalate "," fields

/-- `write_csv(name, rows)`. -/
def write_csv (name : String) (rows : List (Nat × ℚ)) (fs : FS) : FS :=
  fsWrite fs (csvPath name) (FileContent.csv (csvRecords rows))

/-- The lines written by `write_table`.  `titleOf` abstracts the caption
transform `name.replace("_", " ").title()` and `fmt` the float formatting
`f"{t:.6f}"` (text-only transformations with no bearing on the claims). -/
def texLines (titleOf : String → String) (fmt : ℚ → String)
    (name : String) (rows : List (Nat × ℚ)) : List String :=
  ["\\begin\x7btable\x7d[H]", "\\centering",
   "\\caption\x7b" ++ titleOf name ++ " Results\x7d",
   "\\begin\x7btabular\x7d\x7brr\x7d", "\\toprule",
   "n & time (s)\\\\", "\\midrule"] ++
  rows.map (fun r => toString r.1 ++ " & " ++ fmt r.2 ++ "\\\\") ++
  ["\\bottomrule", "\\end\x7btabular\x7d", "\\end\x7btable\x7d"]

/-- `write_table(name, rows)`. -/
def write_table (titleOf : String → String) (fmt : ℚ → String)
    (name : String) (rows : List (Nat × ℚ)) (fs : FS) : FS :=
  fsWrite fs (texPath name) (FileContent.tex (texLines titleOf fmt name rows))

/-- The per-algorithm export step of `main`: `write_csv` then
`write_table` for the same key and rows. -/
def export_files (titleOf : String → String) (fmt : ℚ → String)
    (name : String) (rows : List (Nat × ℚ)) (fs : FS) : FS :=
  write_table titleOf fmt name rows (write_csv name rows fs)

/-! ## Lab2: sorting algorithms (src/Lab2/scripts/generate_results.py)

Python `list[int]` becomes `List Int`; `arr[i]` (always in bounds in the
source) becomes `List.getD arr i 0`; `arr[i] = v` becomes `List.set`;
`arr[:]`, a by-value copy, is the identity on list values. -/

/-- `quicksort(arr)`: filter-based three-way partition around the middle
element, recursing on the strictly-smaller and strictly-larger parts. -/
def quicksort (arr : List Int) : List Int :=
  if h : arr.length ≤ 1 then arr
  else
    let pivot := arr.get ⟨arr.length / 2, by omega⟩
    let left := arr.filter (fun x => decide (x < pivot))
    let middle := arr.filter (fun x => decide (x = pivot))
    let right := arr.filter (fun x => decide (x > pivot))
    quicksort left ++ middle ++ quicksort right
termination_by arr.length
decreasing_by
  · have hm : arr.get ⟨arr.length / 2, by omega⟩ ∈ arr := arr.get_mem _ _
    have hgen : ∀ l : List Int, ∀ q : Int → Bool, q pivot = false → pivot ∈ l →
        (l.filter q).length < l.length := by
      intro l q hq hmem
      induction l with
      | nil => cases hmem
      | cons a t iht =>
        rcases List.mem_cons.mp hmem with rfl | hmem2
        · rw [List.filter_cons, hq]
          exact Nat.lt_succ_of_le (List.length_filter_le q t)
        · rw [List.filter_cons]
          cases q a
          · exact Nat.lt_succ_of_lt (iht hmem2)
          · simpa using Nat.succ_lt_succ (iht hmem2)
    exact hgen arr _ (by simp only [decide_eq_false_iff_not]; exact lt_irrefl _) hm
  · have hm : arr.get ⟨arr.length / 2, by omega⟩ ∈ arr := arr.get_mem _ _
    have hgen : ∀ l : List Int, ∀ q : Int → Bool, q pivot = false → pivot ∈ l →
        (l.filter q).length < l.length := by
      intro l q hq hmem
      induction l with
      | nil => cases hmem
      | cons a t iht =>
        rcases List.mem_cons.mp hmem with rfl | hmem2
        · rw [List.filter_cons, hq]
          exact Nat.lt_succ_of_le (List.length_filter_le q t)
        · rw [List.filter_cons]
          cases q a
          · exact Nat.lt_succ_of_lt (iht hmem2)
          · simpa using Nat.succ_lt_succ (iht hmem2)
    exact hgen arr _ (by simp only [gt_iff_lt, decide_eq_false_iff_not]; exact lt_irrefl _) hm

/-- `_merge(left, right)`: the merge loop (take the head of `left` while
`left[i] <= right[j]`, else the head of `right`; then append the leftover
tail of whichever side remains). -/
def mergeLists : List Int → List Int → List Int
  | [], r => r
  | l, [] => l
  | a :: l, b :: r =>
    if a ≤ b then a :: mergeLists l (b :: r) else b :: mergeLists (a :: l) r

/-- `merge_sort(arr)`: split at `mid = len(arr) // 2`, sort both halves,
merge. -/
def merge_sort (arr : List Int) : List Int :=
  if arr.length ≤ 1 then arr
  else
    let mid := arr.length / 2
    mergeLists (merge_sort (arr.take mid)) (merge_sort (arr.drop mid))
termination_by arr.length
decreasing_by
  · simp only [List.length_take]
    omega
  · simp only [List.length_drop]
    omega

/-- The simultaneous assignment `arr[i], arr[j] = arr[j], arr[i]`. -/
def listSwap (l : List Int) (i j : Nat) : List Int :=
  let a := l.getD i 0
  let b := l.getD j 0
  (l.set i b).set j a

/-- One comparison step of `_heapify`'s `largest` selection: promote
`largest` from `cur` to child `c` when `c < n and arr[c] > arr[largest]`
(Python's `and` short-circuits, hence the nested conditional). -/
def pickStep (n : Nat) (arr : List Int) (cur c : Nat) : Nat :=
  if c < n then (if arr.getD cur 0 < arr.getD c 0 then c else cur) else cur

/-- The `largest` computed by one iteration of `_heapify`'s loop body:
start at `i`, compare with the left child `2 * i + 1`, then with the right
child `2 * i + 2`. -/
def pickLargest (n : Nat) (arr : List Int) (i : Nat) : Nat :=
  pickStep n arr (pickStep n arr i (2 * i + 1)) (2 * i + 2)

/-- `_heapify(arr, n, i)`: the sift-down `while True` loop; it continues at
`largest` after swapping and stops when `largest == i`. -/
def heapifyGo (n : Nat) (arr : List Int) (i : Nat) : List Int :=
  let largest := pickLargest n arr i
  if largest = i then arr
  else heapifyGo n (listSwap arr i largest) largest
termination_by n - i
decreasing_by
  rename_i h
  have hp : i < pickLargest n arr i ∧ pickLargest n arr i < n := by
    have h2 : ¬ pickLargest n arr i = i := h
    unfold pickLargest pickStep at h2 ⊢
    split_ifs at h2 ⊢ <;> omega
  omega

/-- The heap-construction loop `for i in range(n // 2 - 1, -1, -1)`:
`c` counts the remaining iterations, so iteration `c + 1` runs
`_heapify(arr, n, c)`; the initial call has `c = n // 2`. -/
def heapsortBuild (n : Nat) : Nat → List Int → List Int
  | 0, a => a
  | c + 1, a => heapsortBuild n c (heapifyGo n a c)

/-- The extraction loop `for i in range(n - 1, 0, -1)`: swap the root with
position `i`, then sift down on the shrunk heap `arr[:i]`. -/
def heapsortExtract : Nat → List Int → List Int
  | 0, a => a
  | i + 1, a => heapsortExtract i (heapifyGo (i + 1) (listSwap a 0 (i + 1)) 0)

/-- The body of `heapsort` after `arr = arr[:]`: build a max-heap, then
repeatedly extract the maximum.  Every index assignment targets the one
list object bound to the local `arr`. -/
def heapsortInPlace (a : List Int) : List Int :=
  heapsortExtract (a.length - 1) (heapsortBuild a.length (a.length / 2) a)

/-- `heapsort(arr)`: `arr = arr[:]` (by-value copy, the identity on list
values) followed by the in-place phases. -/
def heapsort (arr : List Int) : List Int := heapsortInPlace arr

/-- The innermost `while j >= gap and arr[j - gap] > temp` loop of
`shell_sort`: shift elements up by `gap` and step `j` down.  Returns the
updated list and the final `j`.  The positivity of `gap` (true at every
call site, since the outer loop runs only `while gap > 0`) is what makes
the loop terminate. -/
def shellInner (gap : Nat) (hg : 0 < gap) (temp : Int) :
    List Int → Nat → List Int × Nat
  | a, j =>
    if _h : gap ≤ j then
      if a.getD (j - gap) 0 > temp then
        shellInner gap hg temp (a.set j (a.getD (j - gap) 0)) (j - gap)
      else (a, j)
    else (a, j)
termination_by _ j => j
decreasing_by omega

/-- The middle `for i in range(gap, n)` loop of `shell_sort`: read
`temp = arr[i]`, run the inner shift loop from `j = i`, then store
`arr[j] = temp`. -/
def shellMid (gap : Nat) (hg : 0 < gap) (n : Nat) : Nat → List Int → List Int
  | i, a =>
    if i < n then
      let temp := a.getD i 0
      let p := shellInner gap hg temp a i
      shellMid gap hg n (i + 1) (p.1.set p.2 temp)
    else a
termination_by i _ => n - i
decreasing_by omega

/-- The outer `while gap > 0` loop of `shell_sort`, halving the gap. -/
def shellLoop (n : Nat) (gap : Nat) (a : List Int) : List Int :=
  if h : 0 < gap then shellLoop n (gap / 2) (shellMid gap h n gap a)
  else a
termination_by gap
decreasing_by omega

/-- `shell_sort(arr)`: `arr = arr[:]` (identity on values), then gap passes
starting from `n // 2`. -/
def shell_sort (arr : List Int) : List Int :=
  shellLoop arr.length (arr.length / 2) arr

/-- The max-heap property at node `j` of the region `arr[:n]`: each child
within the region is at most its parent. -/
def childrenOk (a : List Int) (n j : Nat) : Prop :=
  (2 * j + 1 < n → a.getD (2 * j + 1) 0 ≤ a.getD j 0) ∧
  (2 * j + 2 < n → a.getD (2 * j + 2) 0 ≤ a.getD j 0)

/-- `isDesc i k`: `k` lies in the subtree rooted at `i` of the implicit
binary heap (i.e. iterating `parent(k) = (k - 1) / 2` from `k` reaches
`i`).  The sift-down loop writes only at such indices. -/
def isDesc (i : Nat) : Nat → Bool
  | k =>
    if k = i then true
    else if k ≤ i then false
    else isDesc i ((k - 1) / 2)
termination_by k => k
decreasing_by omega

/-! ### The reference/store model for the mutation claims

Python lists are mutable objects; `time_run` protects the caller's array by
passing each trial a fresh copy (`data = arr[:]`).  The store is a map from
references to list values; an algorithm's in-place effect on the object
passed to it is abstracted as a function on list values. -/

/-- A store from references to list values. -/
def Heap : Type := Nat → List Int

/-- Write a value at a reference. -/
def hwrite (h : Heap) (r : Nat) (v : List Int) : Heap :=
  fun s => if s = r then v else h s

/-- Lab2's `time_run(fn, arr)` acting on the store: for each of the
`REPEATS` trials, allocate a fresh reference `freshAt t`, copy the caller's
array into it (`data = arr[:]`), and let the algorithm's in-place effect
`mutFn` rewrite that copy (`fn(data)`; the returned sorted list is
discarded by `time_run`, so only the mutation effect matters here). -/
def time_run_heap (mutFn : List Int → List Int) (h : Heap) (r : Nat)
    (freshAt : Nat → Nat) : Heap :=
  (List.range REPEATS).foldl
    (fun hcur t =>
      let f := freshAt t
      let h1 := hwrite hcur f (hcur r)
      hwrite h1 f (mutFn (h1 f)))
    h

/-- The per-size measurement of `main` across the registered algorithms:
algorithm number `k` is measured by `time_run` on the shared pre-generated
array stored at `r`, using fresh references `freshAt k`. -/
def measure_all_heap (fns : List (List Int → List Int)) (k : Nat) (h : Heap)
    (r : Nat) (freshAt : Nat → Nat → Nat) : Heap :=
  match fns with
  | [] => h
  | fn :: rest =>
    measure_all_heap rest (k + 1) (time_run_heap fn h r (freshAt k)) r freshAt

/-- `quicksort(arr)` as a store action: its body only reads `arr` (no index
assignment anywhere), building new lists, so the store is untouched. -/
def quicksortRef (h : Heap) (r : Nat) : Heap × List Int :=
  (h, quicksort (h r))

/-- `merge_sort(arr)` as a store action: read-only on the store, like
`quicksort`. -/
def merge_sortRef (h : Heap) (r : Nat) : Heap × List Int :=
  (h, merge_sort (h r))

/-- `heapsort(arr)` as a store action: `arr = arr[:]` copies the caller's
list into a fresh reference `f`, and all index assignments of the build and
extract phases target that copy. -/
def heapsortRef (h : Heap) (r f : Nat) : Heap × Nat :=
  let h1 := hwrite h f (h r)
  (hwrite h1 f (heapsortInPlace (h1 f)), f)

/-- `shell_sort(arr)` as a store action, analogous to `heapsortRef`. -/
def shell_sortRef (h : Heap) (r f : Nat) : Heap × Nat :=
  let h1 := hwrite h f (h r)
  (hwrite h1 f (shellLoop (h1 f).length ((h1 f).length / 2) (h1 f)), f)

/-! ### Correctness of `fib_iterative` -/

theorem fibIterGo_spec (m k : Nat) :
    fibIterGo m (Nat.fib k, Nat.fib (k + 1)) =
      (Nat.fib (k + m), Nat.fib (k + m + 1)) := by
  induction m generalizing k with
  | zero => rfl
  | succ m ih =>
    show fibIterGo m (Nat.fib (k + 1), Nat.fib k + Nat.fib (k + 1)) = _
    rw [← Nat.fib_add_two, ih (k + 1)]
    congr 2 <;> omega

theorem fib_iterative_spec (n : Nat) : fib_iterative n = Nat.fib n := by
  have h := fibIterGo_spec n 0
  simp only [Nat.fib_zero, Nat.fib_one, Nat.zero_add] at h
  simp [fib_iterative, h]

/-! ### Correctness of `fib_fast_doubling` -/

theorem fdSolve_spec (f : Nat) :
    ∀ k : Nat, k < 2 ^ f →
      fdSolve (f + 1) k = some ((Nat.fib k : Int), (Nat.fib (k + 1) : Int)) := by
  induction f with
  | zero =>
    intro k hk
    interval_cases k
    rfl
  | succ f ih =>
    intro k hk
    by_cases hk0 : k = 0
    · subst hk0; rfl
    · have hdiv : k / 2 < 2 ^ f := by
        have h2 : k < 2 ^ f * 2 := by
          have := hk
          rwa [Nat.pow_succ] at this
        omega
      have hrec := ih (k / 2) hdiv
      rw [show fdSolve (f + 1 + 1) k =
          if k = 0 then some (0, 1)
          else
            match fdSolve (f + 1) (k / 2) with
            | none => none
            | some (a, b) =>
              let c := a * (2 * b - a)
              let d := a * a + b * b
              if k % 2 = 0 then some (c, d) else some (d, c + d)
          from rfl]
      rw [if_neg hk0, hrec]
      have hfle : Nat.fib (k / 2) ≤ 2 * Nat.fib (k / 2 + 1) := by
        have h1 : Nat.fib (k / 2) ≤ Nat.fib (k / 2 + 1) := Nat.fib_le_fib_succ
        omega
      have hc : (Nat.fib (k / 2) : Int) * (2 * (Nat.fib (k / 2 + 1) : Int) -
          (Nat.fib (k / 2) : Int)) = (Nat.fib (2 * (k / 2)) : Int) := by
        have h2m := Nat.fib_two_mul (k / 2)
        zify [hfle] at h2m
        rw [h2m]
      have hd : (Nat.fib (k / 2) : Int) * (Nat.fib (k / 2) : Int) +
          (Nat.fib (k / 2 + 1) : Int) * (Nat.fib (k / 2 + 1) : Int) =
          (Nat.fib (2 * (k / 2) + 1) : Int) := by
        have h2m := Nat.fib_two_mul_add_one (k / 2)
        zify at h2m
        rw [h2m]
        ring
      by_cases hpar : k % 2 = 0
      · have hk2 : 2 * (k / 2) = k := by omega
        rw [hk2] at hc hd
        simp only [hpar, if_pos]
        exact congrArg some (Prod.ext hc (by simpa [hk2] using hd))
      · have hk2 : 2 * (k / 2) + 1 = k := by omega
        have hsum : (Nat.fib (k + 1) : Int) =
            (Nat.fib (2 * (k / 2)) : Int) + (Nat.fib (2 * (k / 2) + 1) : Int) := by
          have : Nat.fib (2 * (k / 2) + 2) =
              Nat.fib (2 * (k / 2)) + Nat.fib (2 * (k / 2) + 1) := Nat.fib_add_two
          rw [show k + 1 = 2 * (k / 2) + 2 by omega, this]
          push_cast
          ring
        simp only [if_neg hpar]
        refine congrArg some (Prod.ext ?_ ?_)
        · show (Nat.fib (k / 2) : Int) * (Nat.fib (k / 2) : Int) +
            (Nat.fib (k / 2 + 1) : Int) * (Nat.fib (k / 2 + 1) : Int) = (Nat.fib k : Int)
          have hdk := hd
          rw [hk2] at hdk
          exact hdk
        · show (Nat.fib (k / 2) : Int) * (2 * (Nat.fib (k / 2 + 1) : Int) -
            (Nat.fib (k / 2) : Int)) +
            ((Nat.fib (k / 2) : Int) * (Nat.fib (k / 2) : Int) +
             (Nat.fib (k / 2 + 1) : Int) * (Nat.fib (k / 2 + 1) : Int)) =
            (Nat.fib (k + 1) : Int)
          rw [hsum, ← hc, ← hd]

theorem fib_fast_doubling_spec (n : Nat) : fib_fast_doubling n = (Nat.fib n : Int) := by
  have h := fdSolve_spec n n (Nat.lt_two_pow n)
  simp [fib_fast_doubling, h]

/-! ### Correctness of `fib_matrix_fast` -/

theorem mat_mul_assoc (x y z : Mat2) :
    mat_mul (mat_mul x y) z = mat_mul x (mat_mul y z) := by
  cases x
  cases y
  cases z
  simp only [mat_mul, Mat2.mk.injEq]
  refine ⟨by ring, by ring, by ring, by ring⟩

theorem mat_mul_matI (x : Mat2) : mat_mul x matI = x := by
  cases x
  simp [mat_mul, matI]

theorem matI_mat_mul (x : Mat2) : mat_mul matI x = x := by
  cases x
  simp [mat_mul, matI]

theorem matNpow_succ_right (x : Mat2) (p : Nat) :
    matNpow x (p + 1) = mat_mul (matNpow x p) x := by
  induction p with
  | zero => simp [matNpow, mat_mul_matI, matI_mat_mul]
  | succ p ih =>
    calc matNpow x (p + 1 + 1) = mat_mul x (matNpow x (p + 1)) := rfl
      _ = mat_mul x (mat_mul (matNpow x p) x) := by rw [ih]
      _ = mat_mul (mat_mul x (matNpow x p)) x := (mat_mul_assoc x (matNpow x p) x).symm
      _ = mat_mul (matNpow x (p + 1)) x := rfl

theorem matNpow_sq (x : Mat2) (q : Nat) :
    matNpow (mat_mul x x) q = matNpow x (2 * q) := by
  induction q with
  | zero => rfl
  | succ q ih =>
    show mat_mul (mat_mul x x) (matNpow (mat_mul x x) q) = _
    rw [ih, show 2 * (q + 1) = 2 * q + 1 + 1 from by omega]
    rw [show matNpow x (2 * q + 1 + 1) = mat_mul x (matNpow x (2 * q + 1)) from rfl,
      show matNpow x (2 * q + 1) = mat_mul x (matNpow x (2 * q)) from rfl,
      mat_mul_assoc]

theorem matPowGo_spec (p : Nat) : ∀ r b : Mat2,
    matPowGo r b p = mat_mul r (matNpow b p) := by
  induction p using Nat.strong_induction_on with
  | _ p ih =>
    intro r b
    by_cases hp : p = 0
    · subst hp
      rw [matPowGo, if_pos rfl]
      exact (mat_mul_matI r).symm
    · rw [matPowGo, if_neg hp]
      have hlt : p / 2 < p := Nat.div_lt_self (Nat.pos_of_ne_zero hp) one_lt_two
      rw [ih (p / 2) hlt, matNpow_sq]
      by_cases hpar : p % 2 = 1
      · rw [if_pos hpar, mat_mul_assoc]
        congr 1
        rw [show 2 * (p / 2) = p - 1 from by omega]
        have : p = (p - 1) + 1 := by omega
        rw [show mat_mul b (matNpow b (p - 1)) = matNpow b ((p - 1) + 1) from rfl, ← this]
      · rw [if_neg hpar, show 2 * (p / 2) = p from by omega]

theorem matNpow_matQ (n : Nat) :
    matNpow matQ (n + 1) =
      ⟨(Nat.fib (n + 2) : Int), (Nat.fib (n + 1) : Int),
       (Nat.fib (n + 1) : Int), (Nat.fib n : Int)⟩ := by
  induction n with
  | zero =>
    show mat_mul matQ matI = _
    rw [mat_mul_matI]
    simp [matQ]
  | succ n ih =>
    show mat_mul matQ (matNpow matQ (n + 1)) = _
    rw [ih]
    simp only [mat_mul, matQ, Mat2.mk.injEq]
    have h3 : Nat.fib (n + 3) = Nat.fib (n + 1) + Nat.fib (n + 2) := Nat.fib_add_two
    have h2 : Nat.fib (n + 2) = Nat.fib n + Nat.fib (n + 1) := Nat.fib_add_two
    refine ⟨?_, ?_, ?_, ?_⟩
    · rw [show n + 1 + 2 = n + 3 from rfl, h3]
      push_cast
      ring
    · rw [show n + 1 + 1 = n + 2 from rfl, h2]
      push_cast
      ring
    · rw [show n + 1 + 1 = n + 2 from rfl, h2]
      push_cast
      ring
    · ring

theorem fib_matrix_fast_spec (n : Nat) : fib_matrix_fast n = (Nat.fib n : Int) := by
  by_cases hn : n = 0
  · subst hn
    rfl
  · obtain ⟨m, rfl⟩ : ∃ m, n = m + 1 := ⟨n - 1, by omega⟩
    rw [fib_matrix_fast, if_neg hn, mat_pow, matPowGo_spec, matI_mat_mul, matNpow_matQ]

/-! ### Correctness of `fib_binomial` -/

/-- The update `term = term * numerator // denominator` sends the binomial
coefficient for step `k` to the one for step `k + 1` (the division is
exact). -/
theorem binom_step (n k : Nat) (hn : 1 ≤ n) (h : k < (n - 1) / 2) :
    Nat.choose (n - 1 - k) k * ((n - 2 * k - 1) * (n - 2 * k - 2)) /
      ((k + 1) * (n - k - 1)) = Nat.choose (n - 1 - (k + 1)) (k + 1) := by
  set m := n - 1 - k with hm
  have hmk : m ≥ k + 2 := by omega
  have e1 : n - 2 * k - 1 = m - k := by omega
  have e2 : n - 2 * k - 2 = m - k - 1 := by omega
  have e3 : n - k - 1 = m := by omega
  have e4 : n - 1 - (k + 1) = m - 1 := by omega
  rw [e1, e2, e3, e4]
  have A : Nat.choose m (k + 1) * (k + 1) = Nat.choose m k * (m - k) :=
    Nat.choose_succ_right_eq m k
  have B : Nat.choose (m - 1) (k + 1) * m =
      Nat.choose m (k + 1) * (m - k - 1) := by
    have hB := Nat.choose_mul_succ_eq (m - 1) (k + 1)
    rw [show m - 1 + 1 = m from by omega] at hB
    rw [hB]
    congr 1
  have key : Nat.choose m k * ((m - k) * (m - k - 1)) =
      Nat.choose (m - 1) (k + 1) * ((k + 1) * m) := by
    calc Nat.choose m k * ((m - k) * (m - k - 1))
        = Nat.choose m k * (m - k) * (m - k - 1) := by ring
      _ = Nat.choose m (k + 1) * (k + 1) * (m - k - 1) := by rw [A]
      _ = Nat.choose m (k + 1) * (m - k - 1) * (k + 1) := by ring
      _ = Nat.choose (m - 1) (k + 1) * m * (k + 1) := by rw [B]
      _ = Nat.choose (m - 1) (k + 1) * ((k + 1) * m) := by ring
  rw [key]
  exact Nat.mul_div_cancel _ (Nat.mul_pos (by omega) (by omega))

/-- Loop invariant of `binGo`: starting at step `k` with the correct
binomial term, the loop adds the remaining diagonal binomial coefficients. -/
theorem binGo_spec (n : Nat) (hn : 1 ≤ n) :
    ∀ j k total, k + j = (n - 1) / 2 + 1 →
      binGo n ((n - 1) / 2) k (Nat.choose (n - 1 - k) k) total =
        total + ∑ i ∈ Finset.Ico k ((n - 1) / 2 + 1), Nat.choose (n - 1 - i) i := by
  intro j
  induction j with
  | zero =>
    intro k total hk
    rw [binGo, if_neg (by omega)]
    rw [show Finset.Ico k ((n - 1) / 2 + 1) = ∅ from by
      rw [Finset.Ico_eq_empty_iff]; omega]
    simp
  | succ j ih =>
    intro k total hk
    have hkle : k ≤ (n - 1) / 2 := by omega
    rw [binGo, if_pos hkle]
    rw [Finset.sum_eq_sum_Ico_succ_bot (by omega : k < (n - 1) / 2 + 1)]
    by_cases hklt : k < (n - 1) / 2
    · rw [if_pos hklt, binom_step n k hn hklt,
        ih (k + 1) (total + Nat.choose (n - 1 - k) k) (by omega)]
      omega
    · rw [if_neg hklt]
      rw [binGo, if_neg (by omega)]
      rw [show Finset.Ico (k + 1) ((n - 1) / 2 + 1) = ∅ from by
        rw [Finset.Ico_eq_empty_iff]; omega]
      simp

/-- The diagonal binomial sum computed by `fib_binomial` equals `fib`. -/
theorem fib_eq_sum_diag (n : Nat) (hn : 1 ≤ n) :
    Nat.fib n = ∑ i ∈ Finset.range ((n - 1) / 2 + 1), Nat.choose (n - 1 - i) i := by
  have h1 : Nat.fib n = ∑ p ∈ Finset.antidiagonal (n - 1), Nat.choose p.1 p.2 := by
    rw [show n = n - 1 + 1 from by omega] at *
    exact Nat.fib_succ_eq_sum_choose _
  have h2 : Nat.fib n = ∑ i ∈ Finset.range n, Nat.choose i (n - 1 - i) := by
    rw [h1, Finset.Nat.sum_antidiagonal_eq_sum_range_succ_mk]
    rw [show (n - 1).succ = n from by omega]
  have h3 : Nat.fib n = ∑ i ∈ Finset.range n, Nat.choose (n - 1 - i) i := by
    rw [h2, ← Finset.sum_range_reflect]
    refine Finset.sum_congr rfl ?_
    intro x hx
    have hxn : x < n := Finset.mem_range.mp hx
    congr 1
    omega
  rw [h3]
  refine (Finset.sum_subset ?_ ?_).symm
  · intro x hx
    rw [Finset.mem_range] at *
    omega
  · intro x hx hnx
    rw [Finset.mem_range] at *
    have : 2 * x ≥ n := by omega
    exact Nat.choose_eq_zero_of_lt (by omega)

theorem fib_binomial_spec (n : Nat) : fib_binomial n = Nat.fib n := by
  by_cases hn : n = 0
  · subst hn; rfl
  · have hn1 : 1 ≤ n := by omega
    rw [fib_binomial, if_neg hn]
    have hrun := binGo_spec n hn1 ((n - 1) / 2 + 1) 0 0 (by omega)
    simp only [Nat.sub_zero, Nat.choose_zero_right, Nat.zero_add] at hrun
    rw [hrun, fib_eq_sum_diag n hn1, Finset.range_eq_Ico]

/-! ### Correctness and termination of `fib_memoized` -/

theorem memoStepN_add (a b : Nat) (s : MemoState) :
    memoStepN (a + b) s = memoStepN b (memoStepN a s) := by
  induction a generalizing s with
  | zero => rw [Nat.zero_add]; rfl
  | succ a ih =>
    calc memoStepN (a + 1 + b) s = memoStepN (a + b + 1) s := by
          rw [show a + 1 + b = a + b + 1 from by omega]
      _ = memoStepN (a + b) (memoStep s) := rfl
      _ = memoStepN b (memoStepN a (memoStep s)) := ih _
      _ = memoStepN b (memoStepN (a + 1) s) := rfl

theorem memoStepN_empty (j : Nat) (m : List (Nat × Nat)) :
    memoStepN j ⟨[], m⟩ = ⟨[], m⟩ := by
  induction j with
  | zero => rfl
  | succ j ih => exact ih

theorem memoLookup_cons (a b j : Nat) (m : List (Nat × Nat)) :
    memoLookup ((a, b) :: m) j = if j = a then some b else memoLookup m j := by
  by_cases h : j = a
  · subst h
    simp [memoLookup, List.lookup]
  · simp [memoLookup, List.lookup, beq_false_of_ne h, h]

theorem memoFuel_pos (k : Nat) : 1 ≤ memoFuel k := by
  match k with
  | 0 => exact le_refl 1
  | 1 => exact le_refl 1
  | k + 2 =>
    show 1 ≤ 2 + memoFuel (k + 1) + memoFuel k
    omega

/-- Popping a key whose two predecessors are memoized takes one loop
iteration and memoizes the key. -/
theorem memoStep_ready (k : Nat) (rest : List Nat) (m : List (Nat × Nat))
    (hg : goodMemo m) (h1 : (memoLookup m (k - 1)).isSome)
    (h2 : (memoLookup m (k - 2)).isSome) :
    ∃ m2, memoStep ⟨k :: rest, m⟩ = ⟨rest, m2⟩ ∧ goodMemo m2 ∧
      (∀ j, (memoLookup m j).isSome → memoLookup m2 j = memoLookup m j) ∧
      (memoLookup m2 k).isSome := by
  by_cases hk : (memoLookup m k).isSome
  · exact ⟨m, by simp [memoStep, hk], hg, fun j _ => rfl, hk⟩
  · have hk2 : 2 ≤ k := by
      rcases Nat.lt_or_ge k 2 with h | h
      · interval_cases k
        · exact absurd hg.2.1 hk
        · exact absurd hg.2.2 hk
      · exact h
    obtain ⟨v1, hv1⟩ := Option.isSome_iff_exists.mp h1
    obtain ⟨v2, hv2⟩ := Option.isSome_iff_exists.mp h2
    refine ⟨(k, (memoLookup m (k - 1)).getD 0 + (memoLookup m (k - 2)).getD 0) :: m,
      ?_, ?_, ?_, ?_⟩
    · simp [memoStep, hk, h1, h2]
    · refine ⟨?_, ?_, ?_⟩
      · intro j v hj
        rw [memoLookup_cons] at hj
        by_cases hjk : j = k
        · rw [if_pos hjk] at hj
          have e1 : v1 = Nat.fib (k - 1) := hg.1 _ _ hv1
          have e2 : v2 = Nat.fib (k - 2) := hg.1 _ _ hv2
          have hfib : Nat.fib k = Nat.fib (k - 2) + Nat.fib (k - 1) := by
            have h := Nat.fib_add_two (n := k - 2)
            rw [show k - 2 + 2 = k from by omega, show k - 2 + 1 = k - 1 from by omega] at h
            exact h
          subst hjk
          rw [hv1, hv2] at hj
          simp only [Option.getD_some, Option.some.injEq] at hj
          omega
        · rw [if_neg hjk] at hj
          exact hg.1 _ _ hj
      · rw [memoLookup_cons, if_neg (by omega)]
        exact hg.2.1
      · rw [memoLookup_cons, if_neg (by omega)]
        exact hg.2.2
    · intro j hj
      rw [memoLookup_cons, if_neg ?_]
      intro hjk
      subst hjk
      exact hk hj
    · rw [memoLookup_cons, if_pos rfl]
      rfl

/-- Processing the top key of the stack: within `memoFuel k` iterations the
loop pops `k` (and everything it pushes above it), leaving the rest of the
stack intact, growing the memo monotonically, and memoizing `k`. -/
theorem memoRun (k : Nat) : ∀ rest m, goodMemo m →
    ∃ steps m2, steps ≤ memoFuel k ∧
      memoStepN steps ⟨k :: rest, m⟩ = ⟨rest, m2⟩ ∧ goodMemo m2 ∧
      (∀ j, (memoLookup m j).isSome → memoLookup m2 j = memoLookup m j) ∧
      (memoLookup m2 k).isSome := by
  induction k using Nat.strong_induction_on with
  | _ k ih =>
    intro rest m hg
    by_cases hk : (memoLookup m k).isSome
    · refine ⟨1, m, memoFuel_pos k, ?_, hg, fun j _ => rfl, hk⟩
      show memoStep ⟨k :: rest, m⟩ = ⟨rest, m⟩
      simp [memoStep, hk]
    · have hk2 : 2 ≤ k := by
        rcases Nat.lt_or_ge k 2 with h | h
        · interval_cases k
          · exact absurd hg.2.1 hk
          · exact absurd hg.2.2 hk
        · exact h
      have hfuel : memoFuel k = 2 + memoFuel (k - 1) + memoFuel (k - 2) := by
        have h := show memoFuel (k - 2 + 2) = 2 + memoFuel (k - 2 + 1) + memoFuel (k - 2)
          from rfl
        rw [show k - 2 + 2 = k from by omega, show k - 2 + 1 = k - 1 from by omega] at h
        exact h
      by_cases h1 : (memoLookup m (k - 1)).isSome
      · by_cases h2 : (memoLookup m (k - 2)).isSome
        · -- both predecessors ready: one iteration
          obtain ⟨m2, hstep, hg2, hpres, hsome⟩ := memoStep_ready k rest m hg h1 h2
          refine ⟨1, m2, by omega, hstep, hg2, hpres, hsome⟩
        · -- only k-2 missing: push k then k-2
          have hstep : memoStep ⟨k :: rest, m⟩ = ⟨(k - 2) :: k :: rest, m⟩ := by
            simp [memoStep, hk, h1, h2]
          obtain ⟨s2, mB, hs2, hrun2, hgB, hpresB, hsomeB⟩ :=
            ih (k - 2) (by omega) (k :: rest) m hg
          obtain ⟨mC, hstepC, hgC, hpresC, hsomeC⟩ := memoStep_ready k rest mB hgB
            (by rw [hpresB _ h1]; exact h1) hsomeB
          refine ⟨1 + s2 + 1, mC, by omega, ?_, hgC, ?_, hsomeC⟩
          · rw [memoStepN_add, memoStepN_add]
            rw [show memoStepN 1 ⟨k :: rest, m⟩ = memoStep ⟨k :: rest, m⟩ from rfl,
              hstep, hrun2]
            exact hstepC
          · intro j hj
            rw [hpresC _ (by rw [hpresB _ hj]; exact hj), hpresB _ hj]
      · by_cases h2 : (memoLookup m (k - 2)).isSome
        · -- only k-1 missing: push k then k-1
          have hstep : memoStep ⟨k :: rest, m⟩ = ⟨(k - 1) :: k :: rest, m⟩ := by
            simp [memoStep, hk, h1, h2]
          obtain ⟨s1, mB, hs1, hrun1, hgB, hpresB, hsomeB⟩ :=
            ih (k - 1) (by omega) (k :: rest) m hg
          obtain ⟨mC, hstepC, hgC, hpresC, hsomeC⟩ := memoStep_ready k rest mB hgB
            hsomeB (by rw [hpresB _ h2]; exact h2)
          refine ⟨1 + s1 + 1, mC, by omega, ?_, hgC, ?_, hsomeC⟩
          · rw [memoStepN_add, memoStepN_add]
            rw [show memoStepN 1 ⟨k :: rest, m⟩ = memoStep ⟨k :: rest, m⟩ from rfl,
              hstep, hrun1]
            exact hstepC
          · intro j hj
            rw [hpresC _ (by rw [hpresB _ hj]; exact hj), hpresB _ hj]
        · -- both missing: push k, k-1, k-2
          have hstep : memoStep ⟨k :: rest, m⟩ =
              ⟨(k - 2) :: (k - 1) :: k :: rest, m⟩ := by
            simp [memoStep, hk, h1, h2]
          obtain ⟨s2, mB, hs2, hrun2, hgB, hpresB, hsomeB⟩ :=
            ih (k - 2) (by omega) ((k - 1) :: k :: rest) m hg
          obtain ⟨s1, mC, hs1, hrun1, hgC, hpresC, hsomeC⟩ :=
            ih (k - 1) (by omega) (k :: rest) mB hgB
          obtain ⟨mD, hstepD, hgD, hpresD, hsomeD⟩ := memoStep_ready k rest mC hgC
            hsomeC (by rw [hpresC _ hsomeB]; exact hsomeB)
          refine ⟨1 + s2 + s1 + 1, mD, by omega, ?_, hgD, ?_, hsomeD⟩
          · rw [memoStepN_add, memoStepN_add, memoStepN_add]
            rw [show memoStepN 1 ⟨k :: rest, m⟩ = memoStep ⟨k :: rest, m⟩ from rfl,
              hstep, hrun2, hrun1]
            exact hstepD
          · intro j hj
            have hjB := hpresB _ hj
            have hjC : memoLookup mC j = memoLookup m j := by
              rw [hpresC _ (by rw [hjB]; exact hj), hjB]
            rw [hpresD _ (by rw [hjC]; exact hj), hjC]

theorem goodMemo_init : goodMemo [(0, 0), (1, 1)] := by
  refine ⟨?_, by rfl, by rfl⟩
  intro k v hk
  rw [memoLookup_cons] at hk
  by_cases h0 : k = 0
  · subst h0
    simp at hk
    simp [hk.symm]
  · rw [if_neg h0, memoLookup_cons] at hk
    by_cases h1 : k = 1
    · subst h1
      simp at hk
      simp [hk.symm]
    · rw [if_neg h1] at hk
      exact absurd hk (by simp [memoLookup, List.lookup])

theorem fib_memoized_spec (n : Nat) : fib_memoized n = Nat.fib n := by
  by_cases hn : n < 2
  · interval_cases n <;> rfl
  · obtain ⟨steps, m2, hle, hrun, hg2, _, hsome⟩ :=
      memoRun n [] [(0, 0), (1, 1)] goodMemo_init
    obtain ⟨v, hv⟩ := Option.isSome_iff_exists.mp hsome
    have hfinal : memoStepN (memoFuel n) (initMemoState n) = ⟨[], m2⟩ := by
      rw [show memoFuel n = steps + (memoFuel n - steps) from by omega,
        memoStepN_add, show initMemoState n = ⟨[n], [(0, 0), (1, 1)]⟩ from rfl,
        hrun, memoStepN_empty]
    rw [fib_memoized, if_neg hn, hfinal]
    rw [show (MemoState.mk ([] : List Nat) m2).memo = m2 from rfl, hv]
    simp [hg2.1 _ _ hv]

/-! ### The timing harness -/

/-- Evaluation of `time_run`: three invocations, best = minimum reading. -/
theorem time_run_eval {α β : Type} (fn : α → β) (x : α) (es : Nat → ℚ) :
    time_run fn x es =
      (some (min (es 0) (min (es 1) (es 2))), [fn x, fn x, fn x]) := by
  unfold time_run REPEATS
  rw [show List.range 3 = [0, 1, 2] from rfl]
  simp only [List.foldl_cons, List.foldl_nil]
  refine Prod.ext ?_ (by simp)
  norm_num
  split_ifs <;> simp_all [min_def] <;> split_ifs <;> linarith

theorem foldl_append_eq_map {α β : Type} (f : α → β) (l : List α)
    (init : List β) :
    l.foldl (fun acc x => acc ++ [f x]) init = init ++ l.map f := by
  induction l generalizing init with
  | nil => simp
  | cons x xs ih => simp [ih]

theorem run_all_eq_map {κ α : Type} (algs : List (κ × α)) (sizes : List Nat)
    (measure : α → Nat → ℚ) :
    run_all algs sizes measure =
      algs.map (fun e => (e.1, sizes.map (fun n => (n, measure e.2 n)))) := by
  unfold run_all
  have hbody : (fun (acc : List (κ × List (Nat × ℚ))) (entry : κ × α) =>
      acc ++ [(entry.1,
        sizes.foldl (fun rows n => rows ++ [(n, measure entry.2 n)]) [])]) =
      (fun acc entry => acc ++
        [(entry.1, sizes.map (fun n => (n, measure entry.2 n)))]) := by
    funext acc entry
    rw [foldl_append_eq_map (fun n => (n, measure entry.2 n)) sizes []]
    simp
  rw [hbody, foldl_append_eq_map (fun entry : κ × α =>
    (entry.1, sizes.map (fun n => (n, measure entry.2 n)))) algs []]
  simp

/-! ### Correctness of `quicksort` -/

/-- `Sorted (· ≤ ·)` distributes over append (specialization of
`List.pairwise_append`). -/
theorem sorted_append_iff (l1 l2 : List Int) :
    List.Sorted (· ≤ ·) (l1 ++ l2) ↔
      List.Sorted (· ≤ ·) l1 ∧ List.Sorted (· ≤ ·) l2 ∧
        ∀ x ∈ l1, ∀ y ∈ l2, x ≤ y :=
  List.pairwise_append

/-- The three filters of `quicksort` partition the list. -/
theorem filter_three_perm (l : List Int) (pivot : Int) :
    (l.filter (fun x => decide (x < pivot)) ++
      l.filter (fun x => decide (x = pivot)) ++
      l.filter (fun x => decide (x > pivot))).Perm l := by
  induction l with
  | nil => rfl
  | cons a t iht =>
    rcases lt_trichotomy a pivot with hlt | heq | hgt
    · simp only [List.filter_cons, decide_eq_true_eq,
        if_pos hlt, if_neg (ne_of_lt hlt), if_neg (lt_asymm hlt)]
      exact iht.cons a
    · subst heq
      simp only [List.filter_cons, decide_eq_true_eq, if_neg (lt_irrefl a),
        eq_self_iff_true, if_true]
      rw [List.append_assoc, List.cons_append]
      refine List.perm_middle.trans (List.Perm.cons a ?_)
      rw [← List.append_assoc]
      exact iht
    · simp only [List.filter_cons, decide_eq_true_eq,
        if_pos hgt, if_neg (ne_of_gt hgt), if_neg (lt_asymm hgt)]
      exact List.perm_middle.trans (iht.cons a)

theorem quicksort_perm (arr : List Int) : (quicksort arr).Perm arr := by
  induction arr using quicksort.induct with
  | case1 arr h =>
    rw [quicksort, dif_pos h]
  | case2 arr h pivot left right ihl ihr =>
    rw [quicksort, dif_neg h]
    show (quicksort (arr.filter (fun x => decide (x < pivot))) ++
      arr.filter (fun x => decide (x = pivot)) ++
      quicksort (arr.filter (fun x => decide (x > pivot)))).Perm arr
    exact ((ihl.append (List.Perm.refl _)).append ihr).trans
      (filter_three_perm arr pivot)

/-- Lists of length at most one are sorted. -/
theorem sorted_of_length_le_one {l : List Int} (h : l.length ≤ 1) :
    List.Sorted (· ≤ ·) l := by
  match l, h with
  | [], _ => exact List.sorted_nil
  | [a], _ => exact List.sorted_singleton a

/-- A constant list is sorted. -/
theorem sorted_of_all_eq (l : List Int) (c : Int) (h : ∀ x ∈ l, x = c) :
    List.Sorted (· ≤ ·) l := by
  induction l with
  | nil => exact List.sorted_nil
  | cons a t iht =>
    rw [List.sorted_cons]
    refine ⟨fun b hb => ?_, iht fun x hx => h x (List.mem_cons_of_mem a hx)⟩
    rw [h a (List.mem_cons_self a t), h b (List.mem_cons_of_mem a hb)]

theorem quicksort_sorted (arr : List Int) :
    List.Sorted (· ≤ ·) (quicksort arr) := by
  induction arr using quicksort.induct with
  | case1 arr h =>
    rw [quicksort, dif_pos h]
    exact sorted_of_length_le_one h
  | case2 arr h pivot left right ihl ihr =>
    rw [quicksort, dif_neg h]
    show List.Sorted (· ≤ ·)
      (quicksort (arr.filter (fun x => decide (x < pivot))) ++
       arr.filter (fun x => decide (x = pivot)) ++
       quicksort (arr.filter (fun x => decide (x > pivot))))
    have hmeml : ∀ x ∈ quicksort (arr.filter (fun x => decide (x < pivot))),
        x < pivot := by
      intro x hx
      have := (quicksort_perm _).mem_iff.mp hx
      exact of_decide_eq_true (List.mem_filter.mp this).2
    have hmemm : ∀ x ∈ arr.filter (fun x => decide (x = pivot)), x = pivot := by
      intro x hx
      exact of_decide_eq_true (List.mem_filter.mp hx).2
    have hmemr : ∀ x ∈ quicksort (arr.filter (fun x => decide (x > pivot))),
        pivot < x := by
      intro x hx
      have := (quicksort_perm _).mem_iff.mp hx
      exact of_decide_eq_true (List.mem_filter.mp this).2
    rw [sorted_append_iff]
    refine ⟨?_, ihr, ?_⟩
    · rw [sorted_append_iff]
      refine ⟨ihl, sorted_of_all_eq _ pivot hmemm, ?_⟩
      intro x hx y hy
      rw [hmemm y hy]
      exact (hmeml x hx).le
    · intro x hx y hy
      rcases List.mem_append.mp hx with hx1 | hx2
      · exact ((hmeml x hx1).trans (hmemr y hy)).le
      · rw [hmemm x hx2]
        exact (hmemr y hy).le

/-! ### Correctness of `merge_sort` -/

theorem mergeLists_perm : ∀ l r : List Int, (mergeLists l r).Perm (l ++ r) := by
  intro l
  induction l with
  | nil => intro r; rw [mergeLists]; exact (List.Perm.refl r).symm.symm
  | cons a l ihl =>
    intro r
    induction r with
    | nil => simp [mergeLists]
    | cons b r ihr =>
      rw [mergeLists]
      by_cases hab : a ≤ b
      · rw [if_pos hab]
        exact (ihl (b :: r)).cons a
      · rw [if_neg hab]
        exact (ihr.cons b).trans List.perm_middle.symm

theorem mergeLists_sorted : ∀ l r : List Int, List.Sorted (· ≤ ·) l →
    List.Sorted (· ≤ ·) r → List.Sorted (· ≤ ·) (mergeLists l r) := by
  intro l
  induction l with
  | nil => intro r _ hr; rw [mergeLists]; exact hr
  | cons a l ihl =>
    intro r
    induction r with
    | nil => intro hl _; simpa [mergeLists] using hl
    | cons b r ihr =>
      intro hl hr
      rw [mergeLists]
      obtain ⟨hal, hl2⟩ := List.sorted_cons.mp hl
      obtain ⟨hbr, hr2⟩ := List.sorted_cons.mp hr
      by_cases hab : a ≤ b
      · rw [if_pos hab, List.sorted_cons]
        refine ⟨fun x hx => ?_, ihl (b :: r) hl2 hr⟩
        rcases (mergeLists_perm l (b :: r)).mem_iff.mp hx with hx1
        rcases List.mem_append.mp hx1 with hx2 | hx2
        · exact hal x hx2
        · rcases List.mem_cons.mp hx2 with rfl | hx3
          · exact hab
          · exact hab.trans (hbr x hx3)
      · rw [if_neg hab, List.sorted_cons]
        refine ⟨fun x hx => ?_, ihr hl hr2⟩
        rcases (mergeLists_perm (a :: l) r).mem_iff.mp hx with hx1
        rcases List.mem_append.mp hx1 with hx2 | hx2
        · rcases List.mem_cons.mp hx2 with rfl | hx3
          · exact (lt_of_not_ge hab).le
          · exact (lt_of_not_ge hab).le.trans (hal x hx3)
        · exact hbr x hx2

theorem merge_sort_perm (arr : List Int) : (merge_sort arr).Perm arr := by
  induction arr using merge_sort.induct with
  | case1 arr h =>
    rw [merge_sort, if_pos h]
  | case2 arr h mid ih1 ih2 =>
    rw [merge_sort, if_neg h]
    show (mergeLists (merge_sort (arr.take (arr.length / 2)))
      (merge_sort (arr.drop (arr.length / 2)))).Perm arr
    refine (mergeLists_perm _ _).trans ?_
    refine (ih1.append ih2).trans ?_
    rw [List.take_append_drop]

theorem merge_sort_sorted (arr : List Int) :
    List.Sorted (· ≤ ·) (merge_sort arr) := by
  induction arr using merge_sort.induct with
  | case1 arr h =>
    rw [merge_sort, if_pos h]
    exact sorted_of_length_le_one h
  | case2 arr h mid ih1 ih2 =>
    rw [merge_sort, if_neg h]
    exact mergeLists_sorted _ _ ih1 ih2

/-! ### List update and swap lemmas for the array-based sorts -/

theorem getD_set_self (l : List Int) (i : Nat) (v : Int) (h : i < l.length) :
    (l.set i v).getD i 0 = v := by
  induction l generalizing i with
  | nil => simp at h
  | cons x t ih =>
    cases i with
    | zero => rfl
    | succ m =>
      rw [List.set_cons_succ, List.getD_cons_succ]
      exact ih m (by simpa using h)

theorem getD_set_ne (l : List Int) (i k : Nat) (v : Int) (h : k ≠ i) :
    (l.set i v).getD k 0 = l.getD k 0 := by
  induction l generalizing i k with
  | nil => rfl
  | cons x t ih =>
    cases i with
    | zero =>
      cases k with
      | zero => exact absurd rfl h
      | succ m => rfl
    | succ n =>
      cases k with
      | zero => rfl
      | succ m =>
        rw [List.set_cons_succ, List.getD_cons_succ, List.getD_cons_succ]
        exact ih n m (fun he => h (by rw [he]))

theorem set_getD_self (l : List Int) (i : Nat) (h : i < l.length) :
    l.set i (l.getD i 0) = l := by
  induction l generalizing i with
  | nil => rfl
  | cons x t ih =>
    cases i with
    | zero => rfl
    | succ m =>
      rw [List.getD_cons_succ, List.set_cons_succ, ih m (by simpa using h)]

theorem listSwap_length (l : List Int) (i j : Nat) :
    (listSwap l i j).length = l.length := by
  simp [listSwap]

theorem listSwap_getD_fst (l : List Int) (i j : Nat) (hi : i < l.length)
    (hj : j < l.length) : (listSwap l i j).getD i 0 = l.getD j 0 := by
  by_cases hij : i = j
  · subst hij
    rw [listSwap, getD_set_self _ _ _ (by simpa using hi)]
  · rw [listSwap, getD_set_ne _ _ _ _ hij, getD_set_self _ _ _ hi]

theorem listSwap_getD_snd (l : List Int) (i j : Nat) (hj : j < l.length) :
    (listSwap l i j).getD j 0 = l.getD i 0 := by
  rw [listSwap, getD_set_self _ _ _ (by simpa using hj)]

theorem listSwap_getD_ne (l : List Int) (i j k : Nat) (hki : k ≠ i)
    (hkj : k ≠ j) : (listSwap l i j).getD k 0 = l.getD k 0 := by
  rw [listSwap, getD_set_ne _ _ _ _ hkj, getD_set_ne _ _ _ _ hki]

/-- Replacing position `m` of `t` by `x` and putting the old value in
front is a permutation of putting `x` in front of `t`. -/
theorem cons_set_perm (t : List Int) (m : Nat) (x : Int) (h : m < t.length) :
    (t.getD m 0 :: t.set m x).Perm (x :: t) := by
  induction t generalizing m with
  | nil => simp at h
  | cons y s ih =>
    cases m with
    | zero => exact List.Perm.swap x y s
    | succ k =>
      rw [List.getD_cons_succ, List.set_cons_succ]
      exact (List.Perm.swap (s.getD k 0) y (s.set k x)).symm.trans
        (((ih k (by simpa using h)).cons y).trans (List.Perm.swap x y s))

theorem listSwap_perm (l : List Int) (i j : Nat) (hi : i < l.length)
    (hj : j < l.length) : (listSwap l i j).Perm l := by
  induction l generalizing i j with
  | nil => simp at hi
  | cons x t ih =>
    cases i with
    | zero =>
      cases j with
      | zero =>
        rw [listSwap]
        simp [set_getD_self]
      | succ m =>
        rw [listSwap]
        simp only [List.getD_cons_zero, List.getD_cons_succ, List.set_cons_zero,
          List.set_cons_succ]
        exact cons_set_perm t m x (by simpa using hj)
    | succ n =>
      cases j with
      | zero =>
        rw [listSwap]
        simp only [List.getD_cons_zero, List.getD_cons_succ, List.set_cons_succ,
          List.set_cons_zero]
        exact cons_set_perm t n x (by simpa using hi)
      | succ m =>
        rw [listSwap]
        simp only [List.getD_cons_succ, List.set_cons_succ]
        exact (ih n m (by simpa using hi) (by simpa using hj)).cons x

/-! ### Descendant-index lemmas -/

theorem isDesc_self (i : Nat) : isDesc i i = true := by
  rw [isDesc]
  simp

theorem isDesc_false_of_lt (i k : Nat) (h : k < i) : isDesc i k = false := by
  rw [isDesc, if_neg (by omega), if_pos (by omega)]

theorem isDesc_step (i k : Nat) (h1 : k ≠ i) (h2 : ¬ k ≤ i) :
    isDesc i k = isDesc i ((k - 1) / 2) := by
  rw [isDesc, if_neg h1, if_neg h2]

theorem isDesc_le (i k : Nat) (h : isDesc i k = true) : i ≤ k := by
  by_contra hik
  rw [isDesc_false_of_lt i k (by omega)] at h
  cases h

theorem isDesc_child_left (i : Nat) : isDesc i (2 * i + 1) = true := by
  rw [isDesc_step i _ (by omega) (by omega),
    show (2 * i + 1 - 1) / 2 = i from by omega]
  exact isDesc_self i

theorem isDesc_child_right (i : Nat) : isDesc i (2 * i + 2) = true := by
  rw [isDesc_step i _ (by omega) (by omega),
    show (2 * i + 2 - 1) / 2 = i from by omega]
  exact isDesc_self i

theorem isDesc_trans (i L : Nat) (hiL : isDesc i L = true) :
    ∀ k, isDesc L k = true → isDesc i k = true := by
  intro k
  induction k using Nat.strong_induction_on with
  | _ k ih =>
    intro hLk
    by_cases hkL : k = L
    · subst hkL
      exact hiL
    · have hLle : L ≤ k := isDesc_le L k hLk
      have hkgt : L < k := by omega
      rw [isDesc_step L k hkL (by omega)] at hLk
      have hrec := ih ((k - 1) / 2) (by omega) hLk
      have hik : i ≤ (k - 1) / 2 := isDesc_le _ _ hrec
      rw [isDesc_step i k (by omega) (by omega)]
      exact hrec

theorem isDesc_false_of_parent_lt (L c : Nat) (h1 : c ≠ L)
    (h2 : (c - 1) / 2 < L) : isDesc L c = false := by
  by_cases hle : c ≤ L
  · rw [isDesc, if_neg h1, if_pos hle]
  · rw [isDesc_step L c h1 hle]
    exact isDesc_false_of_lt L _ h2

/-! ### `pickLargest` lemmas -/

theorem pickLargest_cases (n : Nat) (arr : List Int) (i : Nat) :
    pickLargest n arr i = i ∨
      (i < pickLargest n arr i ∧ pickLargest n arr i < n ∧
        (pickLargest n arr i = 2 * i + 1 ∨ pickLargest n arr i = 2 * i + 2)) := by
  unfold pickLargest pickStep
  split_ifs <;> omega

theorem pickLargest_value_ge (n : Nat) (arr : List Int) (i : Nat) :
    arr.getD i 0 ≤ arr.getD (pickLargest n arr i) 0 ∧
    (2 * i + 1 < n → arr.getD (2 * i + 1) 0 ≤ arr.getD (pickLargest n arr i) 0) ∧
    (2 * i + 2 < n → arr.getD (2 * i + 2) 0 ≤ arr.getD (pickLargest n arr i) 0) := by
  unfold pickLargest pickStep
  split_ifs <;> refine ⟨?_, ?_, ?_⟩ <;> omega

theorem pickLargest_eq_self_childrenOk (n : Nat) (arr : List Int) (i : Nat)
    (h : pickLargest n arr i = i) : childrenOk arr n i := by
  unfold childrenOk
  unfold pickLargest pickStep at h
  split_ifs at h <;> refine ⟨?_, ?_⟩ <;> omega

/-! ### The sift-down loop `_heapify` -/

theorem heapifyGo_eq (n : Nat) (arr : List Int) (i : Nat) :
    heapifyGo n arr i = if pickLargest n arr i = i then arr
      else heapifyGo n (listSwap arr i (pickLargest n arr i))
        (pickLargest n arr i) := by
  rw [heapifyGo]

theorem heapifyGo_length (n : Nat) (arr : List Int) (i : Nat) :
    (heapifyGo n arr i).length = arr.length := by
  induction arr, i using heapifyGo.induct n with
  | case1 arr i largest heq =>
    rw [heapifyGo_eq, if_pos (show pickLargest n arr i = i from heq)]
  | case2 arr i largest hne ih =>
    rw [heapifyGo_eq, if_neg (show ¬ pickLargest n arr i = i from hne)]
    have ih2 : (heapifyGo n (listSwap arr i (pickLargest n arr i))
        (pickLargest n arr i)).length =
        (listSwap arr i (pickLargest n arr i)).length := ih
    rw [ih2, listSwap_length]

theorem heapifyGo_perm (n : Nat) (arr : List Int) (i : Nat) :
    n ≤ arr.length → (heapifyGo n arr i).Perm arr := by
  induction arr, i using heapifyGo.induct n with
  | case1 arr i largest heq =>
    intro hn
    rw [heapifyGo_eq, if_pos (show pickLargest n arr i = i from heq)]
  | case2 arr i largest hne ih =>
    intro hn
    have hne2 : ¬ pickLargest n arr i = i := hne
    rcases pickLargest_cases n arr i with h0 | ⟨hgt, hlt, _⟩
    · exact absurd h0 hne2
    rw [heapifyGo_eq, if_neg hne2]
    have ih2 : n ≤ (listSwap arr i (pickLargest n arr i)).length →
        (heapifyGo n (listSwap arr i (pickLargest n arr i))
          (pickLargest n arr i)).Perm (listSwap arr i (pickLargest n arr i)) := ih
    refine (ih2 (by rw [listSwap_length]; exact hn)).trans ?_
    exact listSwap_perm arr i (pickLargest n arr i) (by omega) (by omega)

theorem heapifyGo_frame (n : Nat) (arr : List Int) (i : Nat) :
    ∀ k, isDesc i k = false → (heapifyGo n arr i).getD k 0 = arr.getD k 0 := by
  induction arr, i using heapifyGo.induct n with
  | case1 arr i largest heq =>
    intro k _
    rw [heapifyGo_eq, if_pos (show pickLargest n arr i = i from heq)]
  | case2 arr i largest hne ih =>
    intro k hk
    have hne2 : ¬ pickLargest n arr i = i := hne
    rcases pickLargest_cases n arr i with h0 | ⟨hgt, hlt, hchild⟩
    · exact absurd h0 hne2
    rw [heapifyGo_eq, if_neg hne2]
    have hiL : isDesc i (pickLargest n arr i) = true := by
      rcases hchild with hc | hc <;> rw [hc]
      · exact isDesc_child_left i
      · exact isDesc_child_right i
    have hLk : isDesc (pickLargest n arr i) k = false := by
      cases hLk : isDesc (pickLargest n arr i) k
      · rfl
      · exact absurd (isDesc_trans i _ hiL k hLk) (by rw [hk]; simp)
    have ih2 : ∀ k, isDesc (pickLargest n arr i) k = false →
        (heapifyGo n (listSwap arr i (pickLargest n arr i))
          (pickLargest n arr i)).getD k 0 =
        (listSwap arr i (pickLargest n arr i)).getD k 0 := ih
    rw [ih2 k hLk]
    refine listSwap_getD_ne arr i _ k ?_ ?_
    · intro hki
      rw [hki, isDesc_self] at hk
      cases hk
    · intro hkL
      rw [hkL, isDesc_self] at hLk
      cases hLk

theorem heapifyGo_frame_ge (n : Nat) (arr : List Int) (i : Nat) :
    ∀ k, n ≤ k → (heapifyGo n arr i).getD k 0 = arr.getD k 0 := by
  induction arr, i using heapifyGo.induct n with
  | case1 arr i largest heq =>
    intro k _
    rw [heapifyGo_eq, if_pos (show pickLargest n arr i = i from heq)]
  | case2 arr i largest hne ih =>
    intro k hk
    have hne2 : ¬ pickLargest n arr i = i := hne
    rcases pickLargest_cases n arr i with h0 | ⟨hgt, hlt, _⟩
    · exact absurd h0 hne2
    rw [heapifyGo_eq, if_neg hne2]
    have ih2 : ∀ k, n ≤ k →
        (heapifyGo n (listSwap arr i (pickLargest n arr i))
          (pickLargest n arr i)).getD k 0 =
        (listSwap arr i (pickLargest n arr i)).getD k 0 := ih
    rw [ih2 k hk]
    exact listSwap_getD_ne arr i _ k (by omega) (by omega)

theorem heapifyGo_bound (n : Nat) (arr : List Int) (i : Nat) :
    n ≤ arr.length → ∀ b : Int, (∀ k, k < n → arr.getD k 0 ≤ b) →
      ∀ k, k < n → (heapifyGo n arr i).getD k 0 ≤ b := by
  induction arr, i using heapifyGo.induct n with
  | case1 arr i largest heq =>
    intro _ b hb k hk
    rw [heapifyGo_eq, if_pos (show pickLargest n arr i = i from heq)]
    exact hb k hk
  | case2 arr i largest hne ih =>
    intro hn b hb k hk
    have hne2 : ¬ pickLargest n arr i = i := hne
    rcases pickLargest_cases n arr i with h0 | ⟨hgt, hlt, _⟩
    · exact absurd h0 hne2
    rw [heapifyGo_eq, if_neg hne2]
    have ih2 : n ≤ (listSwap arr i (pickLargest n arr i)).length → ∀ b : Int,
        (∀ k, k < n → (listSwap arr i (pickLargest n arr i)).getD k 0 ≤ b) →
        ∀ k, k < n →
          (heapifyGo n (listSwap arr i (pickLargest n arr i))
            (pickLargest n arr i)).getD k 0 ≤ b := ih
    refine ih2 (by rw [listSwap_length]; exact hn) b ?_ k hk
    intro m hm
    by_cases hmi : m = i
    · subst hmi
      rw [listSwap_getD_fst _ _ _ (by omega) (by omega)]
      exact hb _ (by omega)
    · by_cases hmL : m = pickLargest n arr i
      · rw [hmL, listSwap_getD_snd _ _ _ (by omega)]
        exact hb i (by omega)
      · rw [listSwap_getD_ne _ _ _ _ hmi hmL]
        exact hb m hm

theorem heapifyGo_root (n : Nat) (arr : List Int) (i : Nat) :
    n ≤ arr.length → i < n →
      (heapifyGo n arr i).getD i 0 = arr.getD (pickLargest n arr i) 0 := by
  induction arr, i using heapifyGo.induct n with
  | case1 arr i largest heq =>
    intro _ _
    rw [heapifyGo_eq, if_pos (show pickLargest n arr i = i from heq),
      (show pickLargest n arr i = i from heq)]
  | case2 arr i largest hne _ =>
    intro hn hin
    have hne2 : ¬ pickLargest n arr i = i := hne
    rcases pickLargest_cases n arr i with h0 | ⟨hgt, hlt, _⟩
    · exact absurd h0 hne2
    rw [heapifyGo_eq, if_neg hne2]
    rw [heapifyGo_frame n _ _ i (isDesc_false_of_lt _ i hgt)]
    exact listSwap_getD_fst arr i _ (by omega) (by omega)

/-! ### The heap-property argument for one sift-down step -/

/-- Core combinatorial step: if the sift-down at `i` swapped with the
larger child `L` and the recursive call (whose effects are summarized by
the frame, root and heap clauses for `result`) fixed the subtree of `L`,
then the heap property holds from `i` on. -/
theorem heap_step (n : Nat) (arr : List Int) (i L : Nat) (hgt : i < L)
    (hlt : L < n) (hn : n ≤ arr.length) (hchild : L = 2 * i + 1 ∨ L = 2 * i + 2)
    (hval0 : arr.getD i 0 ≤ arr.getD L 0)
    (hval1 : 2 * i + 1 < n → arr.getD (2 * i + 1) 0 ≤ arr.getD L 0)
    (hval2 : 2 * i + 2 < n → arr.getD (2 * i + 2) 0 ≤ arr.getD L 0)
    (pre : ∀ j, i < j → childrenOk arr n j)
    (result : List Int)
    (hframe : ∀ k, isDesc L k = false →
      result.getD k 0 = (listSwap arr i L).getD k 0)
    (hroot : result.getD L 0 =
      (listSwap arr i L).getD (pickLargest n (listSwap arr i L) L) 0)
    (hheap : ∀ j, L ≤ j → childrenOk result n j) :
    ∀ j, i ≤ j → childrenOk result n j := by
  have hresi : result.getD i 0 = arr.getD L 0 := by
    rw [hframe i (isDesc_false_of_lt L i hgt)]
    exact listSwap_getD_fst arr i L (by omega) (by omega)
  have hchild_le : ∀ c, c < n → (c = 2 * i + 1 ∨ c = 2 * i + 2) →
      result.getD c 0 ≤ result.getD i 0 := by
    intro c hcn hc
    rw [hresi]
    by_cases hcL : c = L
    · subst hcL
      rw [hroot]
      rcases pickLargest_cases n (listSwap arr i c) c with hp | ⟨hpg, hpl, hpc⟩
      · rw [hp, listSwap_getD_snd _ _ _ (by omega)]
        exact hval0
      · rcases hpc with hp2 | hp2 <;> rw [hp2]
        · rw [listSwap_getD_ne _ _ _ _ (by omega) (by omega)]
          exact (pre c hgt).1 (by omega)
        · rw [listSwap_getD_ne _ _ _ _ (by omega) (by omega)]
          exact (pre c hgt).2 (by omega)
    · have hframe_c : result.getD c 0 = arr.getD c 0 := by
        rw [hframe c (isDesc_false_of_parent_lt L c hcL (by omega))]
        exact listSwap_getD_ne _ _ _ _ (by omega) hcL
      rw [hframe_c]
      rcases hc with hc | hc <;> rw [hc]
      · exact hval1 (by omega)
      · exact hval2 (by omega)
  intro j hj
  rcases Nat.lt_or_ge j L with hjL | hjL
  · rcases Nat.eq_or_lt_of_le hj with rfl | hij
    · -- j = i
      exact ⟨fun hc => hchild_le _ hc (Or.inl rfl),
        fun hc => hchild_le _ hc (Or.inr rfl)⟩
    · -- i < j < L : untouched node with untouched children
      have hjfix : result.getD j 0 = arr.getD j 0 := by
        rw [hframe j (isDesc_false_of_lt L j hjL)]
        exact listSwap_getD_ne _ _ _ _ (by omega) (by omega)
      have hcfix : ∀ c, (c = 2 * j + 1 ∨ c = 2 * j + 2) →
          result.getD c 0 = arr.getD c 0 := by
        intro c hc
        have hcL : c ≠ L := by
          rcases hchild with h1 | h1 <;> rcases hc with h2 | h2 <;> omega
        rw [hframe c (isDesc_false_of_parent_lt L c hcL (by omega))]
        exact listSwap_getD_ne _ _ _ _ (by omega) hcL
      obtain ⟨h1, h2⟩ := pre j hij
      constructor
      · intro hc
        rw [hjfix, hcfix _ (Or.inl rfl)]
        exact h1 hc
      · intro hc
        rw [hjfix, hcfix _ (Or.inr rfl)]
        exact h2 hc
  · exact hheap j hjL

theorem heapifyGo_heap (n : Nat) (arr : List Int) (i : Nat) :
    n ≤ arr.length → (∀ j, i < j → childrenOk arr n j) →
      ∀ j, i ≤ j → childrenOk (heapifyGo n arr i) n j := by
  induction arr, i using heapifyGo.induct n with
  | case1 arr i largest heq =>
    intro hn pre j hj
    rw [heapifyGo_eq, if_pos (show pickLargest n arr i = i from heq)]
    rcases Nat.eq_or_lt_of_le hj with rfl | hij
    · exact pickLargest_eq_self_childrenOk n arr i heq
    · exact pre j hij
  | case2 arr i largest hne ih =>
    intro hn pre j hj
    have hne2 : ¬ pickLargest n arr i = i := hne
    rcases pickLargest_cases n arr i with h0 | ⟨hgt, hlt, hchild⟩
    · exact absurd h0 hne2
    rw [heapifyGo_eq, if_neg hne2]
    have hpre2 : ∀ j, pickLargest n arr i < j →
        childrenOk (listSwap arr i (pickLargest n arr i)) n j := by
      intro j2 hj2
      obtain ⟨h1, h2⟩ := pre j2 (by omega)
      constructor
      · intro hc
        rw [listSwap_getD_ne _ _ _ _ (by omega) (by omega),
          listSwap_getD_ne _ _ _ _ (by omega) (by omega)]
        exact h1 hc
      · intro hc
        rw [listSwap_getD_ne _ _ _ _ (by omega) (by omega),
          listSwap_getD_ne _ _ _ _ (by omega) (by omega)]
        exact h2 hc
    have ih2 : n ≤ (listSwap arr i (pickLargest n arr i)).length →
        (∀ j, pickLargest n arr i < j →
          childrenOk (listSwap arr i (pickLargest n arr i)) n j) →
        ∀ j, pickLargest n arr i ≤ j →
          childrenOk (heapifyGo n (listSwap arr i (pickLargest n arr i))
            (pickLargest n arr i)) n j := ih
    have hvals := pickLargest_value_ge n arr i
    refine heap_step n arr i (pickLargest n arr i) hgt hlt hn hchild
      hvals.1 hvals.2.1 hvals.2.2 pre _ ?_ ?_ ?_ j hj
    · intro k hk
      exact heapifyGo_frame n _ _ k hk
    · exact heapifyGo_root n _ _ (by rw [listSwap_length]; exact hn) hlt
    · exact ih2 (by rw [listSwap_length]; exact hn) hpre2

/-! ### The heapsort phases -/

/-- In a max-heap region, every element is at most the root. -/
theorem heap_root_max (a : List Int) (n : Nat) (h : ∀ j, childrenOk a n j) :
    ∀ k, k < n → a.getD k 0 ≤ a.getD 0 0 := by
  intro k
  induction k using Nat.strong_induction_on with
  | _ k ih =>
    intro hk
    by_cases hk0 : k = 0
    · subst hk0
      exact le_refl _
    · have hp : (k - 1) / 2 < k := by omega
      have hcase : k = 2 * ((k - 1) / 2) + 1 ∨ k = 2 * ((k - 1) / 2) + 2 := by
        omega
      have hle : a.getD k 0 ≤ a.getD ((k - 1) / 2) 0 := by
        rcases hcase with hc | hc
        · have hh := (h ((k - 1) / 2)).1 (by omega)
          rw [← hc] at hh
          exact hh
        · have hh := (h ((k - 1) / 2)).2 (by omega)
          rw [← hc] at hh
          exact hh
      exact hle.trans (ih _ hp (by omega))

/-- Nodes at or beyond `n / 2` have no children inside the region. -/
theorem build_initial_pre (a : List Int) (n : Nat) :
    ∀ j, n / 2 ≤ j → childrenOk a n j := by
  intro j hj
  constructor <;> (intro hc; omega)

/-- The build loop establishes the heap property on the whole region. -/
theorem heapsortBuild_spec (n : Nat) : ∀ (c : Nat) (a : List Int),
    n ≤ a.length → (∀ j, c ≤ j → childrenOk a n j) →
    ((heapsortBuild n c a).Perm a ∧ (heapsortBuild n c a).length = a.length ∧
     ∀ j, childrenOk (heapsortBuild n c a) n j) := by
  intro c
  induction c with
  | zero =>
    intro a _ pre
    exact ⟨List.Perm.refl a, rfl, fun j => pre j (Nat.zero_le j)⟩
  | succ c ihc =>
    intro a hn pre
    have hh := heapifyGo_heap n a c hn (fun j hj => pre j (by omega))
    have hlen := heapifyGo_length n a c
    obtain ⟨p1, p2, p3⟩ := ihc (heapifyGo n a c)
      (by rw [hlen]; exact hn) (fun j hj => hh j hj)
    refine ⟨?_, ?_, ?_⟩
    · show (heapsortBuild n c (heapifyGo n a c)).Perm a
      exact p1.trans (heapifyGo_perm n a c hn)
    · show (heapsortBuild n c (heapifyGo n a c)).length = a.length
      rw [p2, hlen]
    · intro j
      show childrenOk (heapsortBuild n c (heapifyGo n a c)) n j
      exact p3 j

/-- The extraction loop: with the heap property on `a[: i + 1]`, the
suffix beyond `i` sorted, and the heap part below the suffix, the loop
sorts the whole list, permuting it. -/
theorem heapsortExtract_spec : ∀ (i : Nat) (a : List Int),
    i < a.length →
    (∀ j, childrenOk a (i + 1) j) →
    (∀ p q, p < q → q < a.length → i < q → a.getD p 0 ≤ a.getD q 0) →
    ((heapsortExtract i a).Perm a ∧
     (heapsortExtract i a).length = a.length ∧
     ∀ p q, p < q → q < a.length →
       (heapsortExtract i a).getD p 0 ≤ (heapsortExtract i a).getD q 0) := by
  intro i
  induction i with
  | zero =>
    intro a _ _ hC
    exact ⟨List.Perm.refl a, rfl, fun p q hpq hq => hC p q hpq hq (by omega)⟩
  | succ i ihc =>
    intro a hlen hA hC
    rw [show heapsortExtract (i + 1) a =
      heapsortExtract i (heapifyGo (i + 1) (listSwap a 0 (i + 1)) 0) from rfl]
    set a1 := listSwap a 0 (i + 1) with ha1def
    set a2 := heapifyGo (i + 1) a1 0 with ha2def
    have hlen1 : a1.length = a.length := listSwap_length a 0 (i + 1)
    have hlen2 : a2.length = a.length := by
      rw [ha2def, heapifyGo_length, hlen1]
    have hn1 : i + 1 ≤ a1.length := by omega
    have hmax : ∀ k, k < i + 2 → a.getD k 0 ≤ a.getD 0 0 :=
      heap_root_max a (i + 2) hA
    have ha1_top : a1.getD (i + 1) 0 = a.getD 0 0 :=
      listSwap_getD_snd a 0 (i + 1) (by omega)
    have ha1_zero : a1.getD 0 0 = a.getD (i + 1) 0 :=
      listSwap_getD_fst a 0 (i + 1) (by omega) (by omega)
    have ha1_mid : ∀ k, k ≠ 0 → k ≠ i + 1 → a1.getD k 0 = a.getD k 0 :=
      fun k h1 h2 => listSwap_getD_ne a 0 (i + 1) k h1 h2
    have hpre : ∀ j, 0 < j → childrenOk a1 (i + 1) j := by
      intro j hj
      obtain ⟨h1, h2⟩ := hA j
      constructor
      · intro hc
        rw [ha1_mid j (by omega) (by omega),
          ha1_mid (2 * j + 1) (by omega) (by omega)]
        exact h1 (by omega)
      · intro hc
        rw [ha1_mid j (by omega) (by omega),
          ha1_mid (2 * j + 2) (by omega) (by omega)]
        exact h2 (by omega)
    have hA2 : ∀ j, childrenOk a2 (i + 1) j := by
      intro j
      exact heapifyGo_heap (i + 1) a1 0 hn1 hpre j (Nat.zero_le j)
    have hfr : ∀ k, i + 1 ≤ k → a2.getD k 0 = a1.getD k 0 :=
      heapifyGo_frame_ge (i + 1) a1 0
    have ha2_top : a2.getD (i + 1) 0 = a.getD 0 0 := by
      rw [hfr (i + 1) (le_refl _), ha1_top]
    have hC2 : ∀ p q, p < q → q < a2.length → i < q →
        a2.getD p 0 ≤ a2.getD q 0 := by
      intro p q hpq hq hiq
      rw [hlen2] at hq
      by_cases hq1 : q = i + 1
      · subst hq1
        rw [ha2_top]
        refine heapifyGo_bound (i + 1) a1 0 hn1 (a.getD 0 0) ?_ p (by omega)
        intro k hk
        by_cases hk0 : k = 0
        · subst hk0
          rw [ha1_zero]
          exact hmax (i + 1) (by omega)
        · rw [ha1_mid k hk0 (by omega)]
          exact hmax k (by omega)
      · have hqgt : i + 1 < q := by omega
        have ha2q : a2.getD q 0 = a.getD q 0 := by
          rw [hfr q (by omega), ha1_mid q (by omega) (by omega)]
        by_cases hp1 : p < i + 1
        · rw [ha2q]
          refine heapifyGo_bound (i + 1) a1 0 hn1 (a.getD q 0) ?_ p (by omega)
          intro k hk
          by_cases hk0 : k = 0
          · subst hk0
            rw [ha1_zero]
            exact hC (i + 1) q hqgt hq (by omega)
          · rw [ha1_mid k hk0 (by omega)]
            exact hC k q (by omega) hq (by omega)
        · by_cases hp2 : p = i + 1
          · subst hp2
            rw [ha2q, ha2_top]
            exact hC 0 q (by omega) hq (by omega)
          · rw [ha2q, hfr p (by omega), ha1_mid p (by omega) (by omega)]
            exact hC p q hpq hq (by omega)
    obtain ⟨P1, P2, P3⟩ := ihc a2 (by omega) hA2 hC2
    refine ⟨P1.trans ((heapifyGo_perm (i + 1) a1 0 hn1).trans
      (listSwap_perm a 0 (i + 1) (by omega) (by omega))), ?_, ?_⟩
    · rw [P2, hlen2]
    · intro p q hpq hq
      exact P3 p q hpq (by omega)

/-- Conversion from index-wise ordering to `List.Sorted`. -/
theorem sorted_of_getD_pairwise (l : List Int)
    (h : ∀ p q, p < q → q < l.length → l.getD p 0 ≤ l.getD q 0) :
    List.Sorted (· ≤ ·) l := by
  refine List.pairwise_iff_getElem.mpr ?_
  intro p q hp hq hpq
  have hle := h p q hpq hq
  rwa [List.getD_eq_getElem l 0 hp, List.getD_eq_getElem l 0 hq] at hle

theorem heapsort_run (arr : List Int) :
    (heapsort arr).Perm arr ∧ List.Sorted (· ≤ ·) (heapsort arr) := by
  by_cases h0 : arr.length = 0
  · rw [List.length_eq_zero.mp h0]
    exact ⟨List.Perm.refl _, List.sorted_nil⟩
  · obtain ⟨bp, bl, bh⟩ := heapsortBuild_spec arr.length (arr.length / 2) arr
      (le_refl _) (build_initial_pre arr arr.length)
    have hb1 : arr.length - 1 + 1 = arr.length := by omega
    have bh2 : ∀ j, childrenOk (heapsortBuild arr.length (arr.length / 2) arr)
        (arr.length - 1 + 1) j := by
      rw [hb1]
      exact bh
    obtain ⟨ep, el, es⟩ := heapsortExtract_spec (arr.length - 1)
      (heapsortBuild arr.length (arr.length / 2) arr)
      (by rw [bl]; omega) bh2
      (by intro p q hpq hq hgt; rw [bl] at hq; omega)
    constructor
    · exact ep.trans bp
    · refine sorted_of_getD_pairwise _ ?_
      intro p q hpq hq
      rw [heapsort, heapsortInPlace] at hq ⊢
      refine es p q hpq ?_
      rw [bl]
      rw [el, bl] at hq
      exact hq

/-! ### `shell_sort`: permutation and sortedness -/

theorem set_exchange_perm : ∀ (t : List Int) (m : Nat) (x temp : Int),
    m < t.length → (temp :: t.set m x).Perm (x :: t.set m temp) := by
  intro t
  induction t with
  | nil =>
    intro m x temp h
    simp at h
  | cons y s ih =>
    intro m x temp h
    cases m with
    | zero => exact List.Perm.swap x temp s
    | succ u =>
      rw [List.set_cons_succ, List.set_cons_succ]
      exact ((List.Perm.swap temp y (s.set u x)).symm.trans
        ((ih u x temp (by simpa using h)).cons y)).trans
        (List.Perm.swap x y (s.set u temp))

theorem set_transfer_perm : ∀ (a : List Int) (j k : Nat) (temp : Int),
    j < a.length → k < a.length → j ≠ k →
    ((a.set j (a.getD k 0)).set k temp).Perm (a.set j temp) := by
  intro a
  induction a with
  | nil =>
    intro j k temp hj _ _
    simp at hj
  | cons x t ih =>
    intro j k temp hj hk hjk
    cases j with
    | zero =>
      cases k with
      | zero => exact absurd rfl hjk
      | succ m =>
        simp only [List.set_cons_zero, List.getD_cons_succ, List.set_cons_succ]
        exact cons_set_perm t m temp (by simpa using hk)
    | succ u =>
      cases k with
      | zero =>
        simp only [List.getD_cons_zero, List.set_cons_succ, List.set_cons_zero]
        exact set_exchange_perm t u x temp (by simpa using hj)
      | succ m =>
        simp only [List.getD_cons_succ, List.set_cons_succ]
        exact (ih u m temp (by simpa using hj) (by simpa using hk)
          (by omega)).cons x

theorem shellInner_length (gap : Nat) (hg : 0 < gap) (temp : Int) :
    ∀ (a : List Int) (j : Nat),
      (shellInner gap hg temp a j).1.length = a.length := by
  intro a j
  induction a, j using shellInner.induct gap hg temp with
  | case1 a j h1 h2 ih =>
    rw [show shellInner gap hg temp a j =
      shellInner gap hg temp (a.set j (a.getD (j - gap) 0)) (j - gap) from by
        rw [shellInner, dif_pos h1, if_pos h2]]
    rw [ih, List.length_set]
  | case2 a j h1 h2 =>
    rw [shellInner, dif_pos h1, if_neg h2]
  | case3 a j h1 =>
    rw [shellInner, dif_neg h1]

theorem shellInner_set_perm (gap : Nat) (hg : 0 < gap) (temp : Int) :
    ∀ (a : List Int) (j : Nat), j < a.length →
      ((shellInner gap hg temp a j).1.set (shellInner gap hg temp a j).2
        temp).Perm (a.set j temp) := by
  intro a j
  induction a, j using shellInner.induct gap hg temp with
  | case1 a j h1 h2 ih =>
    intro hj
    rw [show shellInner gap hg temp a j =
      shellInner gap hg temp (a.set j (a.getD (j - gap) 0)) (j - gap) from by
        rw [shellInner, dif_pos h1, if_pos h2]]
    refine (ih (by rw [List.length_set]; omega)).trans ?_
    exact set_transfer_perm a j (j - gap) temp hj (by omega) (by omega)
  | case2 a j h1 h2 =>
    intro hj
    rw [shellInner, dif_pos h1, if_neg h2]
  | case3 a j h1 =>
    intro hj
    rw [shellInner, dif_neg h1]

/-- Characterization of the inner shift loop at gap 1 (the final insertion
pass): the values strictly above `temp` in `a[j' : j]` are shifted one slot
up, everything else is untouched, and the loop exits at `j' = 0` or below a
value `≤ temp`. -/
theorem shellInner_one_spec (hg : 0 < 1) (temp : Int) :
    ∀ (a : List Int) (j : Nat), j < a.length →
      ((shellInner 1 hg temp a j).2 ≤ j ∧
       (shellInner 1 hg temp a j).1.length = a.length ∧
       (∀ p, p < (shellInner 1 hg temp a j).2 →
          (shellInner 1 hg temp a j).1.getD p 0 = a.getD p 0) ∧
       (∀ p, (shellInner 1 hg temp a j).2 < p → p ≤ j →
          (shellInner 1 hg temp a j).1.getD p 0 = a.getD (p - 1) 0) ∧
       (∀ p, j < p → (shellInner 1 hg temp a j).1.getD p 0 = a.getD p 0) ∧
       (∀ p, (shellInner 1 hg temp a j).2 ≤ p → p < j → temp < a.getD p 0) ∧
       ((shellInner 1 hg temp a j).2 = 0 ∨
          a.getD ((shellInner 1 hg temp a j).2 - 1) 0 ≤ temp)) := by
  intro a j
  induction a, j using shellInner.induct 1 hg temp with
  | case1 a j h1 h2 ih =>
    intro hj
    rw [show shellInner 1 hg temp a j =
      shellInner 1 hg temp (a.set j (a.getD (j - 1) 0)) (j - 1) from by
        rw [shellInner, dif_pos h1, if_pos h2]]
    obtain ⟨c1, c2, c3, c4, c5, c6, c7⟩ :=
      ih (by rw [List.length_set]; omega)
    have hset_other : ∀ p, p ≠ j →
        (a.set j (a.getD (j - 1) 0)).getD p 0 = a.getD p 0 :=
      fun p hp => getD_set_ne a j p _ hp
    have hset_j : (a.set j (a.getD (j - 1) 0)).getD j 0 = a.getD (j - 1) 0 :=
      getD_set_self a j _ hj
    refine ⟨by omega, by rw [c2, List.length_set], ?_, ?_, ?_, ?_, ?_⟩
    · intro p hp
      rw [c3 p hp, hset_other p (by omega)]
    · intro p hp1 hp2
      by_cases hpj : p = j
      · subst hpj
        rw [c5 p (by omega), hset_j]
      · rw [c4 p hp1 (by omega), hset_other (p - 1) (by omega)]
    · intro p hp
      rw [c5 p (by omega), hset_other p (by omega)]
    · intro p hp1 hp2
      by_cases hpj : p = j - 1
      · subst hpj
        exact h2
      · have := c6 p hp1 (by omega)
        rwa [hset_other p (by omega)] at this
    · rcases c7 with h0 | hle
      · exact Or.inl h0
      · right
        rwa [hset_other _ (by omega)] at hle
  | case2 a j h1 h2 =>
    intro _
    rw [shellInner, dif_pos h1, if_neg h2]
    refine ⟨le_refl j, rfl, fun p _ => rfl, ?_, fun p _ => rfl, ?_, ?_⟩
    · intro p hp1 hp2
      omega
    · intro p hp1 hp2
      omega
    · right
      exact le_of_not_lt h2
  | case3 a j h1 =>
    intro _
    rw [shellInner, dif_neg h1]
    refine ⟨le_refl j, rfl, fun p _ => rfl, ?_, fun p _ => rfl, ?_, ?_⟩
    · intro p hp1 hp2
      omega
    · intro p hp1 hp2
      omega
    · left
      omega

/-- The middle loop of any pass permutes the list and keeps its length
(each iteration performs a rotation of a segment). -/
theorem shellMid_perm (gap : Nat) (hg : 0 < gap) (n : Nat) :
    ∀ (i : Nat) (a : List Int), n ≤ a.length →
      ((shellMid gap hg n i a).Perm a ∧
       (shellMid gap hg n i a).length = a.length) := by
  intro i a
  induction i, a using shellMid.induct gap hg n with
  | case1 i a hlt temp p ih =>
    intro hn
    rw [show shellMid gap hg n i a = shellMid gap hg n (i + 1)
      ((shellInner gap hg (a.getD i 0) a i).1.set
        (shellInner gap hg (a.getD i 0) a i).2 (a.getD i 0)) from by
        rw [shellMid, if_pos hlt]]
    have hinlen := shellInner_length gap hg (a.getD i 0) a i
    have hsetlen : ((shellInner gap hg (a.getD i 0) a i).1.set
        (shellInner gap hg (a.getD i 0) a i).2 (a.getD i 0)).length =
        a.length := by
      rw [List.length_set, hinlen]
    have ih2 : n ≤ ((shellInner gap hg (a.getD i 0) a i).1.set
        (shellInner gap hg (a.getD i 0) a i).2 (a.getD i 0)).length →
        ((shellMid gap hg n (i + 1)
          ((shellInner gap hg (a.getD i 0) a i).1.set
            (shellInner gap hg (a.getD i 0) a i).2 (a.getD i 0))).Perm
          ((shellInner gap hg (a.getD i 0) a i).1.set
            (shellInner gap hg (a.getD i 0) a i).2 (a.getD i 0)) ∧
         (shellMid gap hg n (i + 1)
          ((shellInner gap hg (a.getD i 0) a i).1.set
            (shellInner gap hg (a.getD i 0) a i).2 (a.getD i 0))).length =
          ((shellInner gap hg (a.getD i 0) a i).1.set
            (shellInner gap hg (a.getD i 0) a i).2 (a.getD i 0)).length) := ih
    obtain ⟨P, L⟩ := ih2 (by rw [hsetlen]; exact hn)
    constructor
    · refine P.trans ?_
      refine (shellInner_set_perm gap hg (a.getD i 0) a i (by omega)).trans ?_
      rw [set_getD_self a i (by omega)]
    · rw [L, hsetlen]
  | case2 i a h =>
    intro _
    rw [shellMid, if_neg h]
    exact ⟨List.Perm.refl a, rfl⟩

/-- The gap-1 pass is insertion sort: starting from a sorted prefix of
length `i ≥ 1`, it sorts the whole list. -/
theorem shellMid_one_sorts (hg : 0 < 1) (n : Nat) :
    ∀ (i : Nat) (a : List Int), a.length = n → 1 ≤ i →
      (∀ p q, p < q → q < i → a.getD p 0 ≤ a.getD q 0) →
      ∀ p q, p < q → q < n →
        (shellMid 1 hg n i a).getD p 0 ≤ (shellMid 1 hg n i a).getD q 0 := by
  intro i a
  induction i, a using shellMid.induct 1 hg n with
  | case2 i a h =>
    intro hlen _ hsort p q hpq hq
    rw [shellMid, if_neg h]
    exact hsort p q hpq (by omega)
  | case1 i a hlt temp p ih =>
    intro hlen h1 hsort
    rw [show shellMid 1 hg n i a = shellMid 1 hg n (i + 1)
      ((shellInner 1 hg (a.getD i 0) a i).1.set
        (shellInner 1 hg (a.getD i 0) a i).2 (a.getD i 0)) from by
        rw [shellMid, if_pos hlt]]
    obtain ⟨c1, c2, c3, c4, c5, c6, c7⟩ :=
      shellInner_one_spec hg (a.getD i 0) a i (by omega)
    have hjlen : (shellInner 1 hg (a.getD i 0) a i).2 <
        (shellInner 1 hg (a.getD i 0) a i).1.length := by
      rw [c2]
      omega
    have hv_eq : ((shellInner 1 hg (a.getD i 0) a i).1.set
        (shellInner 1 hg (a.getD i 0) a i).2 (a.getD i 0)).getD
        (shellInner 1 hg (a.getD i 0) a i).2 0 = a.getD i 0 :=
      getD_set_self _ _ _ hjlen
    have hv_ne : ∀ r, r ≠ (shellInner 1 hg (a.getD i 0) a i).2 →
        ((shellInner 1 hg (a.getD i 0) a i).1.set
          (shellInner 1 hg (a.getD i 0) a i).2 (a.getD i 0)).getD r 0 =
        (shellInner 1 hg (a.getD i 0) a i).1.getD r 0 :=
      fun r hr => getD_set_ne _ _ _ _ hr
    have hv_lt : ∀ r, r < (shellInner 1 hg (a.getD i 0) a i).2 →
        ((shellInner 1 hg (a.getD i 0) a i).1.set
          (shellInner 1 hg (a.getD i 0) a i).2 (a.getD i 0)).getD r 0 =
        a.getD r 0 := by
      intro r hr
      rw [hv_ne r (by omega), c3 r hr]
    have hv_shift : ∀ r, (shellInner 1 hg (a.getD i 0) a i).2 < r → r ≤ i →
        ((shellInner 1 hg (a.getD i 0) a i).1.set
          (shellInner 1 hg (a.getD i 0) a i).2 (a.getD i 0)).getD r 0 =
        a.getD (r - 1) 0 := by
      intro r hr1 hr2
      rw [hv_ne r (by omega), c4 r hr1 hr2]
    have hv_hi : ∀ r, i < r →
        ((shellInner 1 hg (a.getD i 0) a i).1.set
          (shellInner 1 hg (a.getD i 0) a i).2 (a.getD i 0)).getD r 0 =
        a.getD r 0 := by
      intro r hr
      rw [hv_ne r (by omega), c5 r hr]
    have hsort2 : ∀ p q, p < q → q < i + 1 →
        ((shellInner 1 hg (a.getD i 0) a i).1.set
          (shellInner 1 hg (a.getD i 0) a i).2 (a.getD i 0)).getD p 0 ≤
        ((shellInner 1 hg (a.getD i 0) a i).1.set
          (shellInner 1 hg (a.getD i 0) a i).2 (a.getD i 0)).getD q 0 := by
      intro p q hpq hq
      by_cases hpj : p < (shellInner 1 hg (a.getD i 0) a i).2
      · by_cases hqj : q < (shellInner 1 hg (a.getD i 0) a i).2
        · rw [hv_lt p hpj, hv_lt q hqj]
          exact hsort p q hpq (by omega)
        · by_cases hqj2 : q = (shellInner 1 hg (a.getD i 0) a i).2
          · rw [hqj2, hv_lt p hpj, hv_eq]
            rcases c7 with h0 | hle
            · omega
            · rcases Nat.lt_or_ge p ((shellInner 1 hg (a.getD i 0) a i).2 - 1)
                with hp1 | hp1
              · refine (hsort p _ hp1 (by omega)).trans hle
              · have hp2 : p = (shellInner 1 hg (a.getD i 0) a i).2 - 1 := by
                  omega
                rw [hp2]
                exact hle
          · rw [hv_lt p hpj, hv_shift q (by omega) (by omega)]
            exact hsort p (q - 1) (by omega) (by omega)
      · by_cases hpj2 : p = (shellInner 1 hg (a.getD i 0) a i).2
        · rw [hpj2, hv_eq, hv_shift q (by omega) (by omega)]
          exact (c6 (q - 1) (by omega) (by omega)).le
        · rw [hv_shift p (by omega) (by omega), hv_shift q (by omega) (by omega)]
          exact hsort (p - 1) (q - 1) (by omega) (by omega)
    have ih2 : ((shellInner 1 hg (a.getD i 0) a i).1.set
          (shellInner 1 hg (a.getD i 0) a i).2 (a.getD i 0)).length = n →
        1 ≤ i + 1 →
        (∀ p q, p < q → q < i + 1 →
          ((shellInner 1 hg (a.getD i 0) a i).1.set
            (shellInner 1 hg (a.getD i 0) a i).2 (a.getD i 0)).getD p 0 ≤
          ((shellInner 1 hg (a.getD i 0) a i).1.set
            (shellInner 1 hg (a.getD i 0) a i).2 (a.getD i 0)).getD q 0) →
        ∀ p q, p < q → q < n →
          (shellMid 1 hg n (i + 1)
            ((shellInner 1 hg (a.getD i 0) a i).1.set
              (shellInner 1 hg (a.getD i 0) a i).2 (a.getD i 0))).getD p 0 ≤
          (shellMid 1 hg n (i + 1)
            ((shellInner 1 hg (a.getD i 0) a i).1.set
              (shellInner 1 hg (a.getD i 0) a i).2 (a.getD i 0))).getD q 0 := ih
    exact ih2 (by rw [List.length_set, c2, hlen]) (by omega) hsort2

theorem shellLoop_perm (n : Nat) : ∀ (gap : Nat) (a : List Int),
    n ≤ a.length →
    ((shellLoop n gap a).Perm a ∧ (shellLoop n gap a).length = a.length) := by
  intro gap a
  induction gap, a using shellLoop.induct n with
  | case1 gap a h ih =>
    intro hn
    rw [show shellLoop n gap a =
      shellLoop n (gap / 2) (shellMid gap h n gap a) from by
        rw [shellLoop, dif_pos h]]
    obtain ⟨mp, ml⟩ := shellMid_perm gap h n gap a hn
    obtain ⟨P, L⟩ := ih (by rw [ml]; exact hn)
    exact ⟨P.trans mp, by rw [L, ml]⟩
  | case2 gap a h =>
    intro _
    rw [shellLoop, dif_neg h]
    exact ⟨List.Perm.refl a, rfl⟩

/-- Every run of the outer loop with a positive starting gap ends with a
gap-1 pass. -/
theorem shellLoop_endpass (n : Nat) : ∀ (gap : Nat) (a : List Int),
    0 < gap → n ≤ a.length →
    ∃ b : List Int, b.length = a.length ∧
      shellLoop n gap a = shellMid 1 Nat.one_pos n 1 b := by
  intro gap
  induction gap using Nat.strong_induction_on with
  | _ gap ihg =>
    intro a hg hn
    have hstep : shellLoop n gap a =
        shellLoop n (gap / 2) (shellMid gap hg n gap a) := by
      rw [shellLoop, dif_pos hg]
    have ml := (shellMid_perm gap hg n gap a hn).2
    by_cases hone : gap = 1
    · subst hone
      refine ⟨a, rfl, ?_⟩
      rw [hstep, shellLoop, dif_neg (by omega)]
    · have hg2 : 0 < gap / 2 := by omega
      obtain ⟨b, hb, he⟩ := ihg (gap / 2) (by omega) (shellMid gap hg n gap a)
        hg2 (by rw [ml]; exact hn)
      exact ⟨b, by rw [hb, ml], by rw [hstep, he]⟩

theorem shell_sort_run (arr : List Int) :
    (shell_sort arr).Perm arr ∧ List.Sorted (· ≤ ·) (shell_sort arr) := by
  by_cases hs : arr.length ≤ 1
  · have h0 : arr.length / 2 = 0 := by omega
    rw [shell_sort, h0, shellLoop, dif_neg (by omega)]
    exact ⟨List.Perm.refl arr, sorted_of_length_le_one hs⟩
  · have hg : 0 < arr.length / 2 := by omega
    obtain ⟨P, L⟩ := shellLoop_perm arr.length (arr.length / 2) arr (le_refl _)
    refine ⟨P, ?_⟩
    obtain ⟨b, hb, he⟩ := shellLoop_endpass arr.length (arr.length / 2) arr hg
      (le_refl _)
    have hmidlen := (shellMid_perm 1 Nat.one_pos arr.length 1 b
      (by rw [hb])).2
    have hsorted_idx := shellMid_one_sorts Nat.one_pos arr.length 1 b hb
      (le_refl 1) (fun p q hpq hq => by omega)
    refine sorted_of_getD_pairwise _ ?_
    intro p q hpq hq
    rw [show shell_sort arr = shellMid 1 Nat.one_pos arr.length 1 b from he]
      at hq ⊢
    refine hsorted_idx p q hpq ?_
    rw [hmidlen, hb] at hq
    exact hq

/-! ### Frame lemmas for the store model -/

/-- `time_run` never writes the caller's reference: every write targets the
per-trial fresh copies. -/
theorem time_run_heap_frame (mutFn : List Int → List Int) (h : Heap)
    (r : Nat) (freshAt : Nat → Nat) (s : Nat)
    (hs : ∀ t, t < REPEATS → freshAt t ≠ s) :
    time_run_heap mutFn h r freshAt s = h s := by
  unfold time_run_heap REPEATS
  rw [show List.range 3 = [0, 1, 2] from rfl]
  simp only [List.foldl_cons, List.foldl_nil]
  have n0 : ¬ s = freshAt 0 := fun he => hs 0 (by norm_num [REPEATS]) he.symm
  have n1 : ¬ s = freshAt 1 := fun he => hs 1 (by norm_num [REPEATS]) he.symm
  have n2 : ¬ s = freshAt 2 := fun he => hs 2 (by norm_num [REPEATS]) he.symm
  simp [hwrite, n0, n1, n2]

theorem measure_all_heap_frame : ∀ (fns : List (List Int → List Int))
    (k : Nat) (h : Heap) (r : Nat) (freshAt : Nat → Nat → Nat),
    (∀ k2 t, t < REPEATS → freshAt k2 t ≠ r) →
    measure_all_heap fns k h r freshAt r = h r := by
  intro fns
  induction fns with
  | nil =>
    intro k h r freshAt _
    rfl
  | cons fn rest ih =>
    intro k h r freshAt hf
    show measure_all_heap rest (k + 1)
      (time_run_heap fn h r (freshAt k)) r freshAt r = h r
    rw [ih (k + 1) _ r freshAt hf,
      time_run_heap_frame fn h r (freshAt k) r (fun t ht => hf k t ht)]

/-! ## Claim theorems -/

/-- C1: for every `n ≥ 0`, all five Fibonacci implementations
(`fib_iterative`, `fib_memoized`, `fib_fast_doubling`, `fib_binomial`,
`fib_matrix_fast`) return the `n`-th Fibonacci number, hence agree; in
particular the common value is 5 at `n = 5` and 55 at `n = 10`. -/
theorem claim_C1 :
    (∀ n : Nat,
      fib_iterative n = Nat.fib n ∧
      fib_memoized n = Nat.fib n ∧
      fib_fast_doubling n = (Nat.fib n : Int) ∧
      fib_binomial n = Nat.fib n ∧
      fib_matrix_fast n = (Nat.fib n : Int)) ∧
    Nat.fib 5 = 5 ∧ Nat.fib 10 = 55 := by
  refine ⟨fun n => ⟨fib_iterative_spec n, fib_memoized_spec n,
    fib_fast_doubling_spec n, fib_binomial_spec n, fib_matrix_fast_spec n⟩,
    by decide, by decide⟩

/-- C10: `fib_memoized`'s explicit-stack loop terminates for every `n ≥ 0`
(some number of iterations empties the stack), and `fib_fast_doubling`'s
recursion on `k // 2` terminates for every `n ≥ 0` (the fuelled embedding
succeeds with fuel `n + 1`). -/
theorem claim_C10 :
    ∀ n : Nat,
      (∃ steps, (memoStepN steps (initMemoState n)).stack = []) ∧
      (fdSolve (n + 1) n).isSome := by
  intro n
  constructor
  · obtain ⟨steps, m2, _, hrun, _, _, _⟩ :=
      memoRun n [] [(0, 0), (1, 1)] goodMemo_init
    exact ⟨steps, by rw [show initMemoState n = ⟨[n], [(0, 0), (1, 1)]⟩ from rfl, hrun]⟩
  · rw [fdSolve_spec n n (Nat.lt_two_pow n)]
    rfl

/-- C3: `time_run` invokes the algorithm exactly `REPEATS = 3` times (its
invocation trace has length 3), returns the minimum of the three observed
elapsed readings, and discards the algorithm's return value (the returned
time is the same for any other algorithm of the same type). -/
theorem claim_C3 {α β : Type} (fn : α → β) (x : α) (es : Nat → ℚ) :
    REPEATS = 3 ∧
    (time_run fn x es).2.length = REPEATS ∧
    (time_run fn x es).1 = some (min (es 0) (min (es 1) (es 2))) ∧
    ∀ gn : α → β, (time_run fn x es).1 = (time_run gn x es).1 := by
  refine ⟨rfl, by rw [time_run_eval]; rfl, by rw [time_run_eval], fun gn => ?_⟩
  rw [time_run_eval, time_run_eval]

/-- C4: the result of the main measurement loop has exactly one entry per
registered algorithm (same keys, same order), and each entry holds exactly
one `(size, time)` pair per input size, in input order. -/
theorem claim_C4 {κ α : Type} (algs : List (κ × α)) (sizes : List Nat)
    (measure : α → Nat → ℚ) :
    (run_all algs sizes measure).length = algs.length ∧
    (run_all algs sizes measure).map Prod.fst = algs.map Prod.fst ∧
    run_all algs sizes measure =
      algs.map (fun e => (e.1, sizes.map (fun n => (n, measure e.2 n)))) ∧
    ∀ i : Fin algs.length,
      ((run_all algs sizes measure)[i.1]?).map (fun e => e.2.map Prod.fst) =
        some sizes := by
  have hmap := run_all_eq_map algs sizes measure
  refine ⟨by rw [hmap]; simp, by rw [hmap]; simp, hmap, fun i => ?_⟩
  rw [hmap, List.getElem?_map, List.getElem?_eq_getElem i.isLt]
  simp [List.map_map, Function.comp]
  exact (List.map_congr_left fun a _ => rfl).trans (List.map_id sizes)

/-- C6: under the hypothesis that each elapsed clock reading is
non-negative, `time_run` returns a non-negative number. -/
theorem claim_C6 {α β : Type} (fn : α → β) (x : α) (es : Nat → ℚ)
    (hnn : ∀ t, t < REPEATS → 0 ≤ es t) :
    ∃ b, (time_run fn x es).1 = some b ∧ 0 ≤ b := by
  refine ⟨min (es 0) (min (es 1) (es 2)), by rw [time_run_eval], ?_⟩
  have h0 := hnn 0 (by norm_num [REPEATS])
  have h1 := hnn 1 (by norm_num [REPEATS])
  have h2 := hnn 2 (by norm_num [REPEATS])
  exact le_min h0 (le_min h1 h2)

/-- Witness for C6 at a concrete algorithm, input and reading sequence. -/
theorem claim_C6_witness :
    ∃ b, (time_run (fun n : Nat => n + 1) 0 (fun _ => (1 : ℚ))).1 = some b ∧
      0 ≤ b :=
  claim_C6 (fun n : Nat => n + 1) 0 (fun _ => (1 : ℚ)) (fun t _ => by norm_num)

/-- C7: running the export step (`write_csv` then `write_table`) twice with
the same key and rows leaves the filesystem in the same state as running it
once: both files are opened in truncating write mode, so contents are
overwritten, never appended. -/
theorem claim_C7 (titleOf : String → String) (fmt : ℚ → String)
    (name : String) (rows : List (Nat × ℚ)) (fs : FS) :
    export_files titleOf fmt name rows (export_files titleOf fmt name rows fs) =
      export_files titleOf fmt name rows fs := by
  funext p
  simp only [export_files, write_table, write_csv, fsWrite]
  split_ifs <;> rfl

/-- C8: `write_csv` writes `results/<key>.csv` whose first line is the
header `n,time_s` and which contains exactly one further two-column line
per `(size, time)` row, in row order. -/
theorem claim_C8 (name : String) (rows : List (Nat × ℚ)) (fs : FS) :
    write_csv name rows fs (csvPath name) =
      some (FileContent.csv (csvRecords rows)) ∧
    (csvRecords rows).head? = some ["n", "time_s"] ∧
    csvLine ["n", "time_s"] = "n,time_s" ∧
    (csvRecords rows).length = rows.length + 1 ∧
    ∀ i : Fin rows.length,
      (csvRecords rows)[i.1 + 1]? = some (csvRecord (rows.get i)) ∧
      (csvRecord (rows.get i)).length = 2 ∧
      csvLine (csvRecord (rows.get i)) =
        toString (rows.get i).1 ++ "," ++ toString (rows.get i).2 := by
  refine ⟨by simp [write_csv, fsWrite], rfl, rfl, by simp [csvRecords], fun i => ?_⟩
  refine ⟨?_, rfl, rfl⟩
  show (csvRecords rows)[i.1 + 1]? = some (csvRecord (rows.get i))
  rw [csvRecords, List.getElem?_cons_succ, List.getElem?_map,
    List.getElem?_eq_getElem i.isLt]
  rfl

/-- C2: each of the four sorting algorithms returns a non-decreasing
permutation of its input, for every list of integers (hence for every
shared generated input array at every input size). -/
theorem claim_C2 :
    ∀ arr : List Int,
      (List.Sorted (· ≤ ·) (quicksort arr) ∧ (quicksort arr).Perm arr) ∧
      (List.Sorted (· ≤ ·) (merge_sort arr) ∧ (merge_sort arr).Perm arr) ∧
      (List.Sorted (· ≤ ·) (heapsort arr) ∧ (heapsort arr).Perm arr) ∧
      (List.Sorted (· ≤ ·) (shell_sort arr) ∧ (shell_sort arr).Perm arr) :=
  fun arr =>
    ⟨⟨quicksort_sorted arr, quicksort_perm arr⟩,
     ⟨merge_sort_sorted arr, merge_sort_perm arr⟩,
     ⟨(heapsort_run arr).2, (heapsort_run arr).1⟩,
     ⟨(shell_sort_run arr).2, (shell_sort_run arr).1⟩⟩

/-- C5: in the sorting lab, provided the per-trial copies live at fresh
references, no measurement mutates the stored input array: `time_run`
leaves the caller's reference untouched, and across the whole per-size
measurement loop every algorithm reads the identical pre-generated
array. -/
theorem claim_C5 (h : Heap) (r : Nat) (freshAt : Nat → Nat → Nat)
    (hfresh : ∀ k t, t < REPEATS → freshAt k t ≠ r) :
    (∀ (mutFn : List Int → List Int) (k : Nat),
        time_run_heap mutFn h r (freshAt k) r = h r) ∧
    (∀ (fns : List (List Int → List Int)) (k : Nat),
        measure_all_heap fns k h r freshAt r = h r) :=
  ⟨fun mutFn k => time_run_heap_frame mutFn h r (freshAt k) r
      (fun t ht => hfresh k t ht),
   fun fns k => measure_all_heap_frame fns k h r freshAt hfresh⟩

/-- Witness for C5 at a concrete store, reference and allocator. -/
theorem claim_C5_witness :
    (∀ (mutFn : List Int → List Int) (k : Nat),
        time_run_heap mutFn (fun _ => ([] : List Int)) 0
          ((fun _ _ => 1) k) 0 = (fun _ => ([] : List Int)) 0) ∧
    (∀ (fns : List (List Int → List Int)) (k : Nat),
        measure_all_heap fns k (fun _ => ([] : List Int)) 0
          (fun _ _ => 1) 0 = (fun _ => ([] : List Int)) 0) :=
  claim_C5 (fun _ => []) 0 (fun _ _ => 1) (fun _ _ _ => by norm_num)

/-- C9: none of the four sorting functions mutates its argument:
`quicksort` and `merge_sort` only read the store (they build new lists),
while `heapsort` and `shell_sort` copy the argument to a fresh reference
and do all their index assignments there. -/
theorem claim_C9 (h : Heap) (r f : Nat) (hf : f ≠ r) :
    (quicksortRef h r).1 r = h r ∧
    (merge_sortRef h r).1 r = h r ∧
    (heapsortRef h r f).1 r = h r ∧
    (shell_sortRef h r f).1 r = h r := by
  have hrf : ¬ r = f := fun he => hf he.symm
  refine ⟨rfl, rfl, ?_, ?_⟩
  · simp [heapsortRef, hwrite, hrf]
  · simp [shell_sortRef, hwrite, hrf]

/-- Witness for C9 at a concrete store and distinct references. -/
theorem claim_C9_witness :
    (quicksortRef (fun _ => []) 0).1 0 = (fun _ => ([] : List Int)) 0 ∧
    (merge_sortRef (fun _ => []) 0).1 0 = (fun _ => ([] : List Int)) 0 ∧
    (heapsortRef (fun _ => []) 0 1).1 0 = (fun _ => ([] : List Int)) 0 ∧
    (shell_sortRef (fun _ => []) 0 1).1 0 = (fun _ => ([] : List Int)) 0 :=
  claim_C9 (fun _ => []) 0 1 (by norm_num)

end AALabs
